import Mathlib

/-!
Verification development for the mt-kahypar refinement core.

This file shallowly embeds the data structures and operations of the
partitioned hypergraph (src/mt-kahypar/datastructures/partitioned_hypergraph.h),
the FM gain selection routine (src/mt-kahypar/partition/refinement/fm/fm_details.h),
the integral atomic wrapper (src/mt-kahypar/parallel/atomic_wrapper.h) and the
concurrent data container, and proves or refutes the spec's claims about them.

Conventions of the embedding:
* `HypernodeID`, `HyperedgeID` and block ids are `ℕ`; the sentinel
  `kInvalidPartition` is represented by `Option ℕ` being `none` for part ids
  and by `Option` results where the C++ returns an invalid id.
* Weights (`HypernodeWeight`, `HyperedgeWeight`) are `ℤ`; realistic inputs do
  not overflow the 32/64-bit machine integers, and no claim concerns overflow
  of weights, so weights are embedded unbounded.
* All moves are embedded single-threadedly: the CAS spin loop of
  `updatePinCountOfHyperedgeWithoutGainUpdates` always succeeds on the first
  try when no other thread holds the edge, so the per-edge critical section
  becomes a plain sequential update.
* During refinement every node and edge is enabled (spec section 3), so the
  enabled flags are not modelled.
-/

set_option maxHeartbeats 1000000

namespace MtKaHyPar

/-- Modelled from the spec: the external `Hypergraph` collaborator is not part
of the provided sources (only its interface is used by
`partitioned_hypergraph.h`).  Section 6 of the spec lists its capabilities:
`num_nodes`, `num_edges`, `node_weight(v)`, `edge_weight(e)`, `edge_size(e)`,
`degree(v)`, `pins(e)` (ordered, distinct) and `incident_edges(v)`
(ordered, distinct). -/
structure Hypergraph where
  numNodes : ℕ
  numEdges : ℕ
  nodeWeight : ℕ → ℤ
  edgeWeight : ℕ → ℤ
  pins : ℕ → List ℕ
  incidentEdges : ℕ → List ℕ

/-- `edge_size(e)`: the number of pins of hyperedge `e`. -/
def Hypergraph.edgeSize (H : Hypergraph) (e : ℕ) : ℕ :=
  (H.pins e).length

/-- `degree(v)`: the number of incident hyperedges of vertex `v`. -/
def Hypergraph.nodeDegree (H : Hypergraph) (v : ℕ) : ℕ :=
  (H.incidentEdges v).length

/-- Well-formedness of the hypergraph interface, as promised by the spec:
pins and incident-net lists are duplicate free, incidence is symmetric, and
all ids are dense. -/
structure Hypergraph.Wellformed (H : Hypergraph) : Prop where
  pins_nodup : ∀ e, (H.pins e).Nodup
  incident_nodup : ∀ v, (H.incidentEdges v).Nodup
  mem_incident_iff : ∀ v e, e ∈ H.incidentEdges v ↔ v ∈ H.pins e
  pins_lt : ∀ e, ∀ v ∈ H.pins e, v < H.numNodes
  incident_lt : ∀ v, ∀ e ∈ H.incidentEdges v, e < H.numEdges

/-- The mutable state owned by `PartitionedHypergraph`: `_k`, `_part_ids`,
`_part_weights`, `_pins_in_part`, `_connectivity_set`, `_move_from_benefit`
and `_move_to_penalty`.  A part id of `none` is `kInvalidPartition`. -/
@[ext]
structure PHG where
  k : ℕ
  partIds : ℕ → Option ℕ
  partWeights : ℕ → ℤ
  pinCounts : ℕ → ℕ → ℕ
  connSet : ℕ → ℕ → Bool
  moveFromBenefit : ℕ → ℤ
  moveToPenalty : ℕ → ℕ → ℤ

/-- The freshly constructed partitioned hypergraph: all part ids are
`kInvalidPartition`, all counters are zero. -/
def PHG.init (k : ℕ) : PHG where
  k := k
  partIds := fun _ => none
  partWeights := fun _ => 0
  pinCounts := fun _ _ => 0
  connSet := fun _ _ => false
  moveFromBenefit := fun _ => 0
  moveToPenalty := fun _ _ => 0

/-! ### Pin count and connectivity set updates (source lines 1163-1185) -/

/-- `decrementPinCountInPartWithoutGainUpdate(e, p)`: decrement the pin count
of `e` in block `p`; if the count drops to zero remove `p` from the
connectivity set of `e`.  Returns the new count. -/
def decrementPinCountInPartWithoutGainUpdate (s : PHG) (e p : ℕ) : PHG × ℕ :=
  let c := s.pinCounts e p - 1
  let s1 : PHG :=
    { s with pinCounts := fun e2 p2 => if e2 = e ∧ p2 = p then c else s.pinCounts e2 p2 }
  if c = 0 then
    ({ s1 with connSet := fun e2 p2 => if e2 = e ∧ p2 = p then false else s1.connSet e2 p2 }, c)
  else
    (s1, c)

/-- `incrementPinCountInPartWithoutGainUpdate(e, p)`: increment the pin count
of `e` in block `p`; if the count becomes one add `p` to the connectivity set
of `e`.  Returns the new count. -/
def incrementPinCountInPartWithoutGainUpdate (s : PHG) (e p : ℕ) : PHG × ℕ :=
  let c := s.pinCounts e p + 1
  let s1 : PHG :=
    { s with pinCounts := fun e2 p2 => if e2 = e ∧ p2 = p then c else s.pinCounts e2 p2 }
  if c = 1 then
    ({ s1 with connSet := fun e2 p2 => if e2 = e ∧ p2 = p then true else s1.connSet e2 p2 }, c)
  else
    (s1, c)

/-! ### Gain cache delta update (source lines 1013-1047) -/

/-- Atomic `fetch_add` on `_move_from_benefit[u]`. -/
def addBenefit (s : PHG) (u : ℕ) (w : ℤ) : PHG :=
  { s with moveFromBenefit := fun x =>
      if x = u then s.moveFromBenefit x + w else s.moveFromBenefit x }

/-- Atomic `fetch_add` on `_move_to_penalty[penalty_index(u, p)]`. -/
def addPenalty (s : PHG) (u p : ℕ) (w : ℤ) : PHG :=
  { s with moveToPenalty := fun x q =>
      if x = u ∧ q = p then s.moveToPenalty x q + w else s.moveToPenalty x q }

/-- `gainCacheUpdate(he, we, from, pin_count_in_from_part_after, to,
pin_count_in_to_part_after)` from source lines 1013-1047.  The four triggers:
* `c_from = 1`: the first pin of `he` whose part id is `from` gets
  `benefit += we` (the loop `break`s after the first hit);
* `c_from = 0`: every pin gets `penalty[from] += we`;
* `c_to = 1`: every pin gets `penalty[to] -= we`;
* `c_to = 2`: every pin whose part id is `to` gets `benefit -= we`
  (this loop has no `break`). -/
def gainCacheUpdate (H : Hypergraph) (s : PHG) (he : ℕ) (we : ℤ)
    (pfrom cFromAfter pto cToAfter : ℕ) : PHG :=
  let s1 :=
    if cFromAfter = 1 then
      match (H.pins he).find? (fun u => s.partIds u == some pfrom) with
      | some u => addBenefit s u we
      | none => s
    else if cFromAfter = 0 then
      (H.pins he).foldl (fun t u => addPenalty t u pfrom we) s
    else s
  if cToAfter = 1 then
    (H.pins he).foldl (fun t u => addPenalty t u pto (-we)) s1
  else if cToAfter = 2 then
    (H.pins he).foldl
      (fun t u => if t.partIds u = some pto then addBenefit t u (-we) else t) s1
  else s1

/-! ### The move primitive (source lines 560-616, 1133-1161) -/

/-- Per-edge body of the move loop
(`updatePinCountOfHyperedgeWithoutGainUpdates`): under the edge-ownership
lock, decrement the from-count, increment the to-count, and invoke the delta
function.  The two `delta_func` instantiations used by the claims are the
no-op (`changeNodePart`) and the gain-cache update
(`changeNodePartFullUpdate`); `useGainCache` selects between them. -/
def updatePinCountOfHyperedge (H : Hypergraph) (useGainCache : Bool)
    (pfrom pto : ℕ) (s : PHG) (he : ℕ) : PHG :=
  let d := decrementPinCountInPartWithoutGainUpdate s he pfrom
  let i := incrementPinCountInPartWithoutGainUpdate d.1 he pto
  if useGainCache then
    gainCacheUpdate H i.1 he (H.edgeWeight he) pfrom d.2 pto i.2
  else
    i.1

/-- Modelled from the spec: the atomic wrapper `CAtomic` used for
`_part_weights` is declared outside the provided sources.  The spec's balance
test (section 4.3) reads the weight of `to` after the speculative addition and
the weight of `from` after the subtraction, so both speculative updates are
modelled as returning the post-update value. -/
def speculativeWeights (s : PHG) (pfrom pto : ℕ) (wu : ℤ) : PHG :=
  { s with partWeights := fun p =>
      s.partWeights p + (if p = pto then wu else 0) - (if p = pfrom then wu else 0) }

/-- `changeNodePart(u, from, to, max_weight_to, report_success, delta_func)`
from source lines 560-584: speculatively apply the weight deltas, test the
balance condition, and on success set the part id and update every incident
edge; on failure undo the weight deltas and return `false`. -/
def changeNodePartCore (H : Hypergraph) (useGainCache : Bool)
    (u pfrom pto : ℕ) (maxWeightTo : ℤ) (s : PHG) : Bool × PHG :=
  let wu := H.nodeWeight u
  let toWeightAfter := s.partWeights pto + wu
  let fromWeightAfter := s.partWeights pfrom - wu
  let sW := speculativeWeights s pfrom pto wu
  if toWeightAfter ≤ maxWeightTo ∧ 0 < fromWeightAfter then
    let sP : PHG := { sW with partIds := fun x => if x = u then some pto else sW.partIds x }
    (true, (H.incidentEdges u).foldl (updatePinCountOfHyperedge H useGainCache pfrom pto) sP)
  else
    (false, speculativeWeights sW pto pfrom wu)

/-- `changeNodePart` with the no-op delta function. -/
def changeNodePart (H : Hypergraph) (u pfrom pto : ℕ) (maxWeightTo : ℤ)
    (s : PHG) : Bool × PHG :=
  changeNodePartCore H false u pfrom pto maxWeightTo s

/-- `changeNodePartFullUpdate`: `changeNodePart` with the delta function
wrapped so that it additionally calls `gainCacheUpdate` (source lines
596-612). -/
def changeNodePartFullUpdate (H : Hypergraph) (u pfrom pto : ℕ)
    (maxWeightTo : ℤ) (s : PHG) : Bool × PHG :=
  changeNodePartCore H true u pfrom pto maxWeightTo s

/-- The state at the start of the edge loop of a successful move: speculative
weights applied and `_part_ids[u] = to` written. -/
def moveInitState (H : Hypergraph) (s : PHG) (u pfrom pto : ℕ) : PHG :=
  { speculativeWeights s pfrom pto (H.nodeWeight u) with
    partIds := fun x => if x = u then some pto
      else (speculativeWeights s pfrom pto (H.nodeWeight u)).partIds x }

/-! ### Partition initialization (source lines 543-555, 688-693, 1062-1105) -/

/-- `setOnlyNodePart(u, p)`: assign the part id, touching nothing else. -/
def setOnlyNodePart (s : PHG) (u p : ℕ) : PHG :=
  { s with partIds := fun x => if x = u then some p else s.partIds x }

/-- `setNodePart(u, p)`: assign the part id, add the node weight to the block
weight, and increment the pin count of every incident edge in block `p`. -/
def setNodePart (H : Hypergraph) (s : PHG) (u p : ℕ) : PHG :=
  let s1 := setOnlyNodePart s u p
  let s2 : PHG := { s1 with partWeights := fun q =>
      if q = p then s1.partWeights q + H.nodeWeight u else s1.partWeights q }
  (H.incidentEdges u).foldl
    (fun t he => (incrementPinCountInPartWithoutGainUpdate t he p).1) s2

/-- `initializeBlockWeights` (source lines 1062-1079): each block weight
becomes the sum of the weights of the nodes assigned to it (the C++ loop
accumulates thread-local partial sums over node ranges; the combined result is
this per-block sum). -/
def initializeBlockWeights (H : Hypergraph) (s : PHG) : PHG :=
  { s with partWeights := fun p =>
      (((List.range H.numNodes).filter (fun u => s.partIds u == some p)).map
        H.nodeWeight).sum }

/-- `initializePinCountInPart` (source lines 1081-1105): for every edge the
loop counts its pins per block into a thread-local buffer and then stores the
nonzero counts and adds those blocks to the connectivity set; zero counts keep
their initial value 0, so the stored count is exactly the number of pins of
`e` whose part id is `p`. -/
def initializePinCountInPart (H : Hypergraph) (s : PHG) : PHG :=
  { s with
    pinCounts := fun e p => (H.pins e).countP (fun u => s.partIds u == some p)
    connSet := fun e p => 0 < (H.pins e).countP (fun u => s.partIds u == some p) }

/-- `initializePartition` (source lines 688-693): `parallel_invoke` of
`initializeBlockWeights` and `initializePinCountInPart` (they write disjoint
fields). -/
def initializePartition (H : Hypergraph) (s : PHG) : PHG :=
  initializePinCountInPart H (initializeBlockWeights H s)

/-! ### Gain cache initialization (source lines 703-805) -/

/-- The part id of a vertex read as a raw `PartitionID` (the C++ reads the
integer directly; claims only apply to assigned vertices). -/
def partIdOf (s : PHG) (v : ℕ) : ℕ :=
  (s.partIds v).getD 0

/-- Accumulator of `aggregate_contribution_of_he_for_vertex`:
`l_move_from_benefit`, `incident_edges_weight` and `l_move_to_penalty`. -/
@[ext]
structure GainAcc where
  benefit : ℤ
  incidentWeight : ℤ
  penalty : ℕ → ℤ

/-- The all-zero accumulator the gain computation starts from. -/
def GainAcc.zero : GainAcc where
  benefit := 0
  incidentWeight := 0
  penalty := fun _ => 0

/-- `aggregate_contribution_of_he_for_vertex` (source lines 718-733): add the
edge weight to the benefit when the pin count in the vertex's block is one,
subtract it from the penalty of every block in the connectivity set of the
edge (the loop over `connectivitySet(he)` touches each member block once), and
add it to the incident-edges weight. -/
def aggregateContribution (H : Hypergraph) (s : PHG) (blockOfU : ℕ)
    (acc : GainAcc) (he : ℕ) : GainAcc where
  benefit := acc.benefit + (if s.pinCounts he blockOfU = 1 then H.edgeWeight he else 0)
  incidentWeight := acc.incidentWeight + H.edgeWeight he
  penalty := fun p => acc.penalty p - (if s.connSet he p then H.edgeWeight he else 0)

/-- The low-degree path of `initializeGainInformation`: a sequential fold of
`aggregate_contribution_of_he_for_vertex` over the incident edges of `v`. -/
def gainInfoLowDegree (H : Hypergraph) (s : PHG) (v : ℕ) : GainAcc :=
  (H.incidentEdges v).foldl (aggregateContribution H s (partIdOf s v)) GainAcc.zero

/-- The high-degree path of `initializeGainInformation` (source lines
771-802): the incident edges are split into chunks (the `blocked_range`
pieces), each chunk is aggregated into a thread-local accumulator, and the
accumulators are combined with `+` (`combine(std::plus)` for the benefit and
incident weight, the summation loop over `ets_mtp` for the penalties). -/
def gainInfoHighDegree (H : Hypergraph) (s : PHG) (v : ℕ)
    (chunks : List (List ℕ)) : GainAcc :=
  let locals := chunks.map
    (fun ch => ch.foldl (aggregateContribution H s (partIdOf s v)) GainAcc.zero)
  { benefit := (locals.map GainAcc.benefit).sum
    incidentWeight := (locals.map GainAcc.incidentWeight).sum
    penalty := fun p => (locals.map (fun a => a.penalty p)).sum }

/-- `initializeGainInformation` (source lines 703-805): for every vertex store
`l_move_from_benefit` into `_move_from_benefit[v]` and
`l_move_to_penalty[p] + incident_edges_weight` into `_move_to_penalty[v][p]`.
The low- and high-degree paths agree (proved below), so the stored values are
expressed through the low-degree fold. -/
def initializeGainInformation (H : Hypergraph) (s : PHG) : PHG :=
  { s with
    moveFromBenefit := fun v => (gainInfoLowDegree H s v).benefit
    moveToPenalty := fun v p =>
      (gainInfoLowDegree H s v).penalty p + (gainInfoLowDegree H s v).incidentWeight }

/-! ### Read accessors (source lines 538-683, 833-853, 1107-1115) -/

/-- `connectivity(e)`: the number of blocks in the connectivity set of `e`
(source line 653; `ConnectivitySets::connectivity` is the popcount of the
per-edge block bitset). -/
def connectivity (s : PHG) (e : ℕ) : ℕ :=
  ((List.range s.k).filter (fun p => s.connSet e p)).length

/-- `isBorderNode(u)` (source lines 625-640): for a vertex of degree at most
`HIGH_DEGREE_THRESHOLD = 100000` scan the incident edges for one with
connectivity greater than one; for a high-degree vertex the check is omitted
and `false` is returned. -/
def isBorderNode (H : Hypergraph) (s : PHG) (u : ℕ) : Bool :=
  if H.nodeDegree u ≤ 100000 then
    (H.incidentEdges u).any (fun he => 1 < connectivity s he)
  else
    false

/-- `moveFromBenefitRecomputed(u)` (source lines 833-842): the sum of the
weights of the incident edges with exactly one pin in the block of `u`. -/
def moveFromBenefitRecomputed (H : Hypergraph) (s : PHG) (u : ℕ) : ℤ :=
  (H.incidentEdges u).foldl
    (fun w e => if s.pinCounts e (partIdOf s u) = 1 then w + H.edgeWeight e else w) 0

/-- `moveToPenaltyRecomputed(u, p)` (source lines 845-853): the sum of the
weights of the incident edges with no pin in block `p`. -/
def moveToPenaltyRecomputed (H : Hypergraph) (s : PHG) (u p : ℕ) : ℤ :=
  (H.incidentEdges u).foldl
    (fun w e => if s.pinCounts e p = 0 then w + H.edgeWeight e else w) 0

/-- `pinCountInPartRecomputed(e, p)` (source lines 1107-1115): the number of
pins of `e` whose part id is `p`. -/
def pinCountInPartRecomputed (H : Hypergraph) (s : PHG) (e p : ℕ) : ℕ :=
  (H.pins e).countP (fun u => s.partIds u == some p)

/-- `km1Gain(u, from, to) = moveFromBenefit(u) - moveToPenalty(u, to)`
(source lines 677-683). -/
def km1Gain (s : PHG) (u _pfrom pto : ℕ) : ℤ :=
  s.moveFromBenefit u - s.moveToPenalty u pto

/-- The km1 (connectivity minus one) objective of the spec's glossary:
`Σ_e w(e) · (λ(e) − 1)` where `λ(e)` is the size of the connectivity set. -/
def km1 (H : Hypergraph) (s : PHG) : ℤ :=
  ((List.range H.numEdges).map
    (fun e => H.edgeWeight e * ((connectivity s e : ℤ) - 1))).sum

/-! ### The invariants of section 3 of the spec -/

/-- The strong tracked-state invariant: pin counts equal the recomputed pin
counts, connectivity-set membership is equivalent to a positive pin count,
block weights equal the recomputed block weights, and every vertex is assigned
a valid block. -/
structure Tracked (H : Hypergraph) (s : PHG) : Prop where
  counts : ∀ e p, s.pinCounts e p = pinCountInPartRecomputed H s e p
  conn : ∀ e p, s.connSet e p = true ↔ 1 ≤ s.pinCounts e p
  weights : ∀ p, s.partWeights p =
    (((List.range H.numNodes).filter (fun u => s.partIds u == some p)).map
      H.nodeWeight).sum
  assigned : ∀ v < H.numNodes, ∃ p < s.k, s.partIds v = some p

/-- Reachable partition states: an all-nodes assignment through
`setNodePart`, or through `setOnlyNodePart` followed by
`initializePartition`, followed by any sequence of successful
`changeNodePart` calls (with or without gain-cache updates) whose
preconditions (`partID(u) = from ≠ to`, both valid blocks) hold. -/
inductive Reachable (H : Hypergraph) : PHG → Prop where
  | viaSetNodePart (k : ℕ) (f : ℕ → ℕ) (hf : ∀ v < H.numNodes, f v < k) :
      Reachable H ((List.range H.numNodes).foldl
        (fun t v => setNodePart H t v (f v)) (PHG.init k))
  | viaInitializePartition (k : ℕ) (f : ℕ → ℕ) (hf : ∀ v < H.numNodes, f v < k) :
      Reachable H (initializePartition H
        ((List.range H.numNodes).foldl
          (fun t v => setOnlyNodePart t v (f v)) (PHG.init k)))
  | move (s : PHG) (g : Bool) (u pfrom pto : ℕ) (maxWeightTo : ℤ)
      (hs : Reachable H s) (hu : u < H.numNodes)
      (hpart : s.partIds u = some pfrom) (hne : pfrom ≠ pto) (hto : pto < s.k)
      (hsucc : (changeNodePartCore H g u pfrom pto maxWeightTo s).1 = true) :
      Reachable H (changeNodePartCore H g u pfrom pto maxWeightTo s).2

/-! ### `bestDestinationBlock` (fm_details.h lines 137-162) -/

/-- Loop state of `bestDestinationBlock`: the current best target `to`
(`kInvalidPartition` embedded as `none`), the best penalty so far
(`std::numeric_limits::max()` embedded as `none`, the top element; penalties
of realistic inputs are strictly below the machine maximum), and
`best_to_weight`. -/
structure BestDest where
  toBlock : Option ℕ
  toPenalty : Option ℤ
  bestToWeight : ℤ

/-- The comparison `penalty < to_penalty || (penalty == to_penalty &&
to_weight < best_to_weight)` with the sentinel top penalty. -/
def betterDest (penalty : ℤ) (toWeight : ℤ) (b : BestDest) : Prop :=
  match b.toPenalty with
  | none => True
  | some tp => penalty < tp ∨ (penalty = tp ∧ toWeight < b.bestToWeight)

instance (penalty toWeight : ℤ) (b : BestDest) :
    Decidable (betterDest penalty toWeight b) := by
  unfold betterDest
  match b.toPenalty with
  | none => exact inferInstanceAs (Decidable True)
  | some tp => exact inferInstanceAs (Decidable (_ ∨ _))

/-- One iteration of the `bestDestinationBlock` loop body for block `i`. -/
def bestDestStep (s : PHG) (u pfrom : ℕ) (wu : ℤ) (maxPartWeights : ℕ → ℤ)
    (b : BestDest) (i : ℕ) : BestDest :=
  if i ≠ pfrom then
    let toWeight := s.partWeights i
    let penalty := s.moveToPenalty u i
    if betterDest penalty toWeight b ∧ toWeight + wu ≤ maxPartWeights i then
      { toBlock := some i, toPenalty := some penalty, bestToWeight := toWeight }
    else b
  else b

/-- `bestDestinationBlock(u)` (fm_details.h lines 137-162): iterate over all
blocks; the result is the chosen block (`none` embeds `kInvalidPartition`) and
the gain, which is `moveFromBenefit(u) - to_penalty` when a block was found
and `none` (embedding `std::numeric_limits::min()`) otherwise. -/
def bestDestinationBlock (H : Hypergraph) (s : PHG) (u : ℕ)
    (maxPartWeights : ℕ → ℤ) : Option ℕ × Option ℤ :=
  let wu := H.nodeWeight u
  let pfrom := partIdOf s u
  let b := (List.range s.k).foldl
    (bestDestStep s u pfrom wu maxPartWeights)
    { toBlock := none, toPenalty := none, bestToWeight := s.partWeights pfrom - wu }
  match b.toBlock, b.toPenalty with
  | some t, some tp => (some t, some (s.moveFromBenefit u - tp))
  | _, _ => (none, none)

/-- Feasibility of destination block `i` for vertex `u` in
`bestDestinationBlock`: a block other than the current one whose weight after
adding `u` stays within its maximum part weight. -/
def feasibleBlock (H : Hypergraph) (s : PHG) (u : ℕ) (mpw : ℕ → ℤ) (i : ℕ) : Prop :=
  i ≠ partIdOf s u ∧ s.partWeights i + H.nodeWeight u ≤ mpw i

/-- Loop invariant of the `bestDestinationBlock` fold after processing the
blocks in `proc`: either no candidate was taken yet and no processed block is
feasible, or the current candidate is a feasible processed block with the
recorded penalty and weight that is lexicographically minimal (penalty first,
then weight) among the feasible processed blocks. -/
def bestDestInv (s : PHG) (u pfrom : ℕ) (wu : ℤ) (mpw : ℕ → ℤ)
    (proc : List ℕ) (B : BestDest) : Prop :=
  (B.toBlock = none → B.toPenalty = none ∧
    ∀ i ∈ proc, ¬(i ≠ pfrom ∧ s.partWeights i + wu ≤ mpw i)) ∧
  (∀ b, B.toBlock = some b →
    b ∈ proc ∧ (b ≠ pfrom ∧ s.partWeights b + wu ≤ mpw b) ∧
    B.toPenalty = some (s.moveToPenalty u b) ∧
    B.bestToWeight = s.partWeights b ∧
    ∀ i ∈ proc, (i ≠ pfrom ∧ s.partWeights i + wu ≤ mpw i) →
      (s.moveToPenalty u b < s.moveToPenalty u i ∨
        (s.moveToPenalty u b = s.moveToPenalty u i ∧
          s.partWeights b ≤ s.partWeights i)))

/-! ### `IntegralAtomicWrapper` (atomic_wrapper.h lines 129-163)

The wrapper holds a single integral value; each operator is embedded as a
function from the held value to the pair (returned value, stored value).
The underlying type `T` is embedded as `ℤ` (the claims do not concern
overflow of a particular width). -/

namespace IntegralAtomicWrapper

/-- `operator++()` : `return ++_value` — stores `x + 1`, returns `x + 1`. -/
def preIncrementOp (x : ℤ) : ℤ × ℤ :=
  (x + 1, x + 1)

/-- `operator++(int)` : `return _value++` — stores `x + 1`, returns `x`. -/
def postIncrementOp (x : ℤ) : ℤ × ℤ :=
  (x, x + 1)

/-- `operator--()` : `return --_value` — stores `x - 1`, returns `x - 1`. -/
def preDecrementOp (x : ℤ) : ℤ × ℤ :=
  (x - 1, x - 1)

/-- `operator--(int)` (atomic_wrapper.h lines 141-143): the body is
`return _value++`, i.e. an atomic postfix increment — it stores `x + 1` and
returns `x`. -/
def postDecrementOp (x : ℤ) : ℤ × ℤ :=
  (x, x + 1)

/-- What postfix decrement on the underlying `std::atomic` does: store
`x - 1`, return the previous value `x`. -/
def atomicPostDecrementSpec (x : ℤ) : ℤ × ℤ :=
  (x, x - 1)

end IntegralAtomicWrapper

/-! ### `ConcurrentDataContainer` (src/unnamed/part_002 lines 28-77)

The container holds an atomic `size_t` size (arithmetic wraps modulo `2^64`)
and a fixed-capacity element vector, embedded as a total function from
indices. -/

/-- The modulus of `size_t` arithmetic. -/
def size_t_mod : ℕ := 2 ^ 64

/-- `ConcurrentDataContainer` state over element type `α`. -/
structure ConcurrentDataContainer (α : Type) where
  size : ℕ
  elements : ℕ → α

namespace ConcurrentDataContainer

/-- The constructor: size 0, `maxNumElements` default-constructed elements. -/
def create (α : Type) [Inhabited α] : ConcurrentDataContainer α :=
  ⟨0, fun _ => default⟩

/-- `push_back(el)` (lines 37-41): `old_size = size.fetch_add(1)`, then write
`elements[old_size] = el`.  Returns the index written to. -/
def push_back {α : Type} (c : ConcurrentDataContainer α) (el : α) :
    ConcurrentDataContainer α × ℕ :=
  let old_size := c.size
  (⟨(c.size + 1) % size_t_mod,
    fun i => if i = old_size then el else c.elements i⟩, old_size)

/-- `try_pop(dest)` (lines 43-50): `old_size = size.fetch_sub(1)` (the
subtraction happens unconditionally and wraps modulo `2^64` on an empty
container), then return the element at `old_size - 1` when `old_size > 0` and
`false` otherwise. -/
def try_pop {α : Type} (c : ConcurrentDataContainer α) :
    Bool × Option α × ConcurrentDataContainer α :=
  let old_size := c.size
  let c1 : ConcurrentDataContainer α :=
    ⟨(c.size + size_t_mod - 1) % size_t_mod, c.elements⟩
  if 0 < old_size then
    (true, some (c.elements (old_size - 1)), c1)
  else
    (false, none, c1)

/-- `unsafe_size()` (lines 56-58). -/
def unsafe_size {α : Type} (c : ConcurrentDataContainer α) : ℕ :=
  c.size

/-- `empty()` (lines 52-54): `unsafe_size() == 0`. -/
def empty {α : Type} (c : ConcurrentDataContainer α) : Bool :=
  unsafe_size c == 0

end ConcurrentDataContainer

/-! ### Derived characterizations of the per-edge move deltas

These are not source functions; they are closed forms for the effect of one
`updatePinCountOfHyperedge` step, proved below to coincide with the folds. -/

/-- The first pin of `he` whose part id is `pfrom` (the pin found by the
`break`ing loop of the `c_from = 1` trigger). -/
def findFromPin (H : Hypergraph) (part : ℕ → Option ℕ) (he pfrom : ℕ) : Option ℕ :=
  (H.pins he).find? (fun u => part u == some pfrom)

/-- The pin-count row of edge `e` after moving one pin from `pfrom` to
`pto`. -/
def movedRowCount (pfrom pto : ℕ) (row : ℕ → ℕ) : ℕ → ℕ :=
  fun p => if p = pfrom then row pfrom - 1 else if p = pto then row pto + 1 else row p

/-- The connectivity-set row of edge `e` after moving one pin from `pfrom` to
`pto`. -/
def movedRowConn (pfrom pto : ℕ) (row : ℕ → ℕ) (conn : ℕ → Bool) : ℕ → Bool :=
  fun p =>
    if p = pfrom then (if row pfrom - 1 = 0 then false else conn pfrom)
    else if p = pto then (if row pto + 1 = 1 then true else conn pto)
    else conn p

/-- The total delta applied to `_move_from_benefit[x]` by the gain-cache
update of edge `e` during a move from `pfrom` to `pto`, expressed over the
state at the start of the edge loop. -/
def moveEdgeDeltaBenefit (H : Hypergraph) (g : Bool) (pfrom pto : ℕ)
    (s : PHG) (e x : ℕ) : ℤ :=
  if g then
    (if s.pinCounts e pfrom - 1 = 1 ∧ findFromPin H s.partIds e pfrom = some x then
      H.edgeWeight e else 0)
    + (if s.pinCounts e pto + 1 = 2 ∧ x ∈ H.pins e ∧ s.partIds x = some pto then
      -(H.edgeWeight e) else 0)
  else 0

/-- The total delta applied to `_move_to_penalty[x][q]` by the gain-cache
update of edge `e` during a move from `pfrom` to `pto`. -/
def moveEdgeDeltaPenalty (H : Hypergraph) (g : Bool) (pfrom pto : ℕ)
    (s : PHG) (e x q : ℕ) : ℤ :=
  if g then
    (if s.pinCounts e pfrom - 1 = 0 ∧ x ∈ H.pins e ∧ q = pfrom then
      H.edgeWeight e else 0)
    + (if s.pinCounts e pto + 1 = 1 ∧ x ∈ H.pins e ∧ q = pto then
      -(H.edgeWeight e) else 0)
  else 0

/-! ### Concrete instances used by counterexamples and witnesses -/

/-- Two nodes joined by one hyperedge, unit weights (spec scenario 1). -/
def Hex1 : Hypergraph where
  numNodes := 2
  numEdges := 1
  nodeWeight := fun _ => 1
  edgeWeight := fun _ => 1
  pins := fun e => if e = 0 then [0, 1] else []
  incidentEdges := fun v => if v < 2 then [0] else []

/-- The scenario-1 partition of `Hex1`: vertex 0 in block 0, vertex 1 in
block 1, built through `setNodePart`. -/
def s1 : PHG :=
  (List.range 2).foldl (fun t v => setNodePart Hex1 t v v) (PHG.init 2)

/-- Four nodes on one hyperedge, unit weights (spec scenario 3). -/
def Hex3 : Hypergraph where
  numNodes := 4
  numEdges := 1
  nodeWeight := fun _ => 1
  edgeWeight := fun _ => 1
  pins := fun e => if e = 0 then [0, 1, 2, 3] else []
  incidentEdges := fun v => if v < 4 then [0] else []

/-- The scenario-3 partition of `Hex3` (`part_id = [0,0,0,1]`) before the
gain cache is initialized. -/
def s3pre : PHG :=
  initializePartition Hex3
    ((List.range 4).foldl
      (fun t v => setOnlyNodePart t v (if v = 3 then 1 else 0)) (PHG.init 2))

/-- The scenario-3 partition of `Hex3` with the gain cache initialized. -/
def s3 : PHG :=
  initializeGainInformation Hex3 s3pre

/-- Three nodes, one hyperedge over nodes 0 and 1, unit weights (round-trip
counterexample instance). -/
def Hex2 : Hypergraph where
  numNodes := 3
  numEdges := 1
  nodeWeight := fun _ => 1
  edgeWeight := fun _ => 1
  pins := fun e => if e = 0 then [0, 1] else []
  incidentEdges := fun v => if v < 2 then [0] else []

/-- The partition `part_id = [0,0,1]` of `Hex2` with the gain cache
initialized. -/
def s2rt : PHG :=
  initializeGainInformation Hex2 (initializePartition Hex2
    ((List.range 3).foldl
      (fun t v => setOnlyNodePart t v (if v = 2 then 1 else 0)) (PHG.init 2)))

/-- A vertex of degree 100001 (above `HIGH_DEGREE_THRESHOLD`): vertex 0 is a
pin of edge 0 (shared with vertex 1) and of 100000 single-pin edges. -/
def HexBig : Hypergraph where
  numNodes := 2
  numEdges := 100001
  nodeWeight := fun _ => 1
  edgeWeight := fun _ => 1
  pins := fun e => if e = 0 then [0, 1] else [0]
  incidentEdges := fun v => if v = 0 then List.range 100001 else [0]

/-- The partition `part_id = [0,1]` of `HexBig`. -/
def sBig : PHG :=
  initializePartition HexBig
    ((List.range 2).foldl (fun t v => setOnlyNodePart t v v) (PHG.init 2))

/-- The scenario-3 state at the moment `gainCacheUpdate` runs for the move of
vertex 2 from block 0 to block 1: the part id of vertex 2 has already been
written (the move primitive sets `_part_ids[u] = to` before the edge loop). -/
def s3moved : PHG :=
  { s3 with partIds := fun x => if x = 2 then some 1 else s3.partIds x }

/-- The first stage of `gainCacheUpdate` (the `c_from` triggers), named so the
characterization lemmas can factor the definition. -/
def gainCacheUpdateFromStage (H : Hypergraph) (s : PHG) (he : ℕ) (we : ℤ)
    (pfrom cFromAfter : ℕ) : PHG :=
  if cFromAfter = 1 then
    match (H.pins he).find? (fun u => s.partIds u == some pfrom) with
    | some u => addBenefit s u we
    | none => s
  else if cFromAfter = 0 then
    (H.pins he).foldl (fun t u => addPenalty t u pfrom we) s
  else s

/-- Equality of the partition fields (everything except the two gain-cache
tables) of two states. -/
def PHG.BaseEq (a b : PHG) : Prop :=
  b.k = a.k ∧ b.partIds = a.partIds ∧ b.partWeights = a.partWeights ∧
    b.pinCounts = a.pinCounts ∧ b.connSet = a.connSet

/-! ## Theorems -/

/-! ### Fold characterization lemmas for the gain-cache update -/

/-- A fold whose step touches only the two gain-cache fields leaves the
partition fields unchanged. -/
lemma foldl_preserves_base (step : PHG → ℕ → PHG)
    (h : ∀ t u, (step t u).k = t.k ∧ (step t u).partIds = t.partIds ∧
      (step t u).partWeights = t.partWeights ∧ (step t u).pinCounts = t.pinCounts ∧
      (step t u).connSet = t.connSet) :
    ∀ (l : List ℕ) (s : PHG),
      (l.foldl step s).k = s.k ∧ (l.foldl step s).partIds = s.partIds ∧
      (l.foldl step s).partWeights = s.partWeights ∧
      (l.foldl step s).pinCounts = s.pinCounts ∧
      (l.foldl step s).connSet = s.connSet := by
  intro l
  induction l with
  | nil => intro s; exact ⟨rfl, rfl, rfl, rfl, rfl⟩
  | cons a l ih =>
    intro s
    have h1 := h s a
    have h2 := ih (step s a)
    simp only [List.foldl_cons]
    exact ⟨h2.1.trans h1.1, h2.2.1.trans h1.2.1, h2.2.2.1.trans h1.2.2.1,
      h2.2.2.2.1.trans h1.2.2.2.1, h2.2.2.2.2.trans h1.2.2.2.2⟩

/-- The penalty fold of the `c_from = 0` and `c_to = 1` triggers adds `w` to
`penalty[x][q]` once for each occurrence of `x` in the (duplicate-free) pin
list. -/
lemma foldl_addPenalty_value (q : ℕ) (w : ℤ) :
    ∀ (l : List ℕ), l.Nodup → ∀ (s : PHG) (x p : ℕ),
      (l.foldl (fun t u => addPenalty t u q w) s).moveToPenalty x p =
        s.moveToPenalty x p + (if x ∈ l ∧ p = q then w else 0) := by
  intro l
  induction l with
  | nil => intro _ s x p; simp
  | cons a l ih =>
    intro hnd s x p
    obtain ⟨ha, hl2⟩ := List.nodup_cons.mp hnd
    simp only [List.foldl_cons]
    rw [ih hl2]
    simp only [addPenalty]
    by_cases hp : p = q
    · by_cases hxa : x = a
      · subst hxa
        simp [hp, ha]
      · by_cases hxl : x ∈ l <;> simp [hp, hxa, hxl]
    · simp [hp]

/-- The penalty fold leaves every benefit entry unchanged. -/
lemma foldl_addPenalty_benefit (q : ℕ) (w : ℤ) (l : List ℕ) (s : PHG) (x : ℕ) :
    (l.foldl (fun t u => addPenalty t u q w) s).moveFromBenefit x =
      s.moveFromBenefit x := by
  induction l generalizing s with
  | nil => rfl
  | cons a l ih => simp only [List.foldl_cons]; rw [ih]; rfl

/-- The conditional benefit fold of the `c_to = 2` trigger adds `w` to the
benefit of exactly the pins whose part id is `pto`. -/
lemma foldl_condAddBenefit_value (pto : ℕ) (w : ℤ) :
    ∀ (l : List ℕ), l.Nodup → ∀ (s : PHG) (x : ℕ),
      (l.foldl (fun t u => if t.partIds u = some pto then addBenefit t u w else t)
        s).moveFromBenefit x =
        s.moveFromBenefit x + (if x ∈ l ∧ s.partIds x = some pto then w else 0) := by
  intro l
  induction l with
  | nil => intro _ s x; simp
  | cons a l ih =>
    intro hnd s x
    obtain ⟨ha, hl2⟩ := List.nodup_cons.mp hnd
    simp only [List.foldl_cons]
    have hpid : (if s.partIds a = some pto then addBenefit s a w else s).partIds =
        s.partIds := by
      by_cases hc : s.partIds a = some pto <;> simp [hc, addBenefit]
    rw [ih hl2, hpid]
    by_cases hc : s.partIds a = some pto
    · by_cases hxa : x = a
      · subst hxa
        simp [hc, ha, addBenefit]
      · by_cases hxl : x ∈ l <;> simp [hc, hxa, hxl, addBenefit]
    · by_cases hxa : x = a
      · subst hxa
        simp [hc]
      · simp [hc, hxa]

/-- The conditional benefit fold leaves every penalty entry unchanged, and
preserves the partition fields. -/
lemma foldl_condAddBenefit_base (pto : ℕ) (w : ℤ) (l : List ℕ) (s : PHG) :
    ((l.foldl (fun t u => if t.partIds u = some pto then addBenefit t u w else t)
      s).k = s.k ∧
    (l.foldl (fun t u => if t.partIds u = some pto then addBenefit t u w else t)
      s).partIds = s.partIds ∧
    (l.foldl (fun t u => if t.partIds u = some pto then addBenefit t u w else t)
      s).partWeights = s.partWeights ∧
    (l.foldl (fun t u => if t.partIds u = some pto then addBenefit t u w else t)
      s).pinCounts = s.pinCounts ∧
    (l.foldl (fun t u => if t.partIds u = some pto then addBenefit t u w else t)
      s).connSet = s.connSet) ∧
    ∀ x p, (l.foldl (fun t u => if t.partIds u = some pto then addBenefit t u w else t)
      s).moveToPenalty x p = s.moveToPenalty x p := by
  constructor
  · refine foldl_preserves_base _ (fun t u => ?_) l s
    by_cases hc : t.partIds u = some pto <;> simp [hc, addBenefit]
  · intro x p
    induction l generalizing s with
    | nil => rfl
    | cons a l ih =>
      simp only [List.foldl_cons]
      rw [ih]
      by_cases hc : s.partIds a = some pto <;> simp [hc, addBenefit]

/-- The penalty fold preserves the partition fields. -/
lemma foldl_addPenalty_base (q : ℕ) (w : ℤ) (l : List ℕ) (s : PHG) :
    (l.foldl (fun t u => addPenalty t u q w) s).k = s.k ∧
    (l.foldl (fun t u => addPenalty t u q w) s).partIds = s.partIds ∧
    (l.foldl (fun t u => addPenalty t u q w) s).partWeights = s.partWeights ∧
    (l.foldl (fun t u => addPenalty t u q w) s).pinCounts = s.pinCounts ∧
    (l.foldl (fun t u => addPenalty t u q w) s).connSet = s.connSet := by
  exact foldl_preserves_base (fun t u => addPenalty t u q w)
    (fun t u => ⟨rfl, rfl, rfl, rfl, rfl⟩) l s

/-- `BaseEq` is reflexive. -/
lemma baseEq_refl (a : PHG) : a.BaseEq a :=
  ⟨rfl, rfl, rfl, rfl, rfl⟩

/-- `BaseEq` composes. -/
lemma baseEq_trans {a b c : PHG} (h1 : a.BaseEq b) (h2 : b.BaseEq c) : a.BaseEq c :=
  ⟨h2.1.trans h1.1, h2.2.1.trans h1.2.1, h2.2.2.1.trans h1.2.2.1,
    h2.2.2.2.1.trans h1.2.2.2.1, h2.2.2.2.2.trans h1.2.2.2.2⟩

/-- `addBenefit` keeps the partition fields. -/
lemma addBenefit_baseEq (t : PHG) (u : ℕ) (w : ℤ) : t.BaseEq (addBenefit t u w) :=
  ⟨rfl, rfl, rfl, rfl, rfl⟩

/-- `gainCacheUpdate` is the `c_to` stage applied after the `c_from` stage. -/
lemma gainCacheUpdate_eq_stages (H : Hypergraph) (s : PHG) (he : ℕ) (we : ℤ)
    (pfrom cf pto ct : ℕ) :
    gainCacheUpdate H s he we pfrom cf pto ct =
      (if ct = 1 then
        (H.pins he).foldl (fun t u => addPenalty t u pto (-we))
          (gainCacheUpdateFromStage H s he we pfrom cf)
      else if ct = 2 then
        (H.pins he).foldl
          (fun t u => if t.partIds u = some pto then addBenefit t u (-we) else t)
          (gainCacheUpdateFromStage H s he we pfrom cf)
      else gainCacheUpdateFromStage H s he we pfrom cf) := rfl

/-- The `c_from` stage keeps the partition fields. -/
lemma gainCacheUpdateFromStage_baseEq (H : Hypergraph) (s : PHG) (he : ℕ)
    (we : ℤ) (pfrom cf : ℕ) :
    s.BaseEq (gainCacheUpdateFromStage H s he we pfrom cf) := by
  unfold gainCacheUpdateFromStage
  by_cases h1 : cf = 1
  · simp only [h1, if_true]
    cases hfind : (H.pins he).find? (fun u => s.partIds u == some pfrom) with
    | none => exact baseEq_refl s
    | some u => exact addBenefit_baseEq s u we
  · by_cases h0 : cf = 0
    · simp only [h1, h0, if_false, if_true]
      exact foldl_addPenalty_base pfrom we (H.pins he) s
    · simp only [h1, h0, if_false]
      exact baseEq_refl s

/-- `gainCacheUpdate` touches only the gain-cache fields. -/
lemma gainCacheUpdate_baseEq (H : Hypergraph) (s : PHG) (he : ℕ) (we : ℤ)
    (pfrom cf pto ct : ℕ) :
    s.BaseEq (gainCacheUpdate H s he we pfrom cf pto ct) := by
  rw [gainCacheUpdate_eq_stages]
  have h1 := gainCacheUpdateFromStage_baseEq H s he we pfrom cf
  by_cases hc1 : ct = 1
  · simp only [hc1, if_true]
    exact baseEq_trans h1 (foldl_addPenalty_base pto (-we) (H.pins he) _)
  · by_cases hc2 : ct = 2
    · simp only [hc1, hc2, if_false, if_true]
      exact baseEq_trans h1 (foldl_condAddBenefit_base pto (-we) (H.pins he) _).1
    · simp only [hc1, hc2, if_false]
      exact h1

/-- The `c_from` stage's effect on the benefit table. -/
lemma gainCacheUpdateFromStage_benefit (H : Hypergraph) (s : PHG) (he : ℕ)
    (we : ℤ) (pfrom cf : ℕ) (x : ℕ) :
    (gainCacheUpdateFromStage H s he we pfrom cf).moveFromBenefit x =
      s.moveFromBenefit x +
        (if cf = 1 ∧ findFromPin H s.partIds he pfrom = some x then we else 0) := by
  unfold gainCacheUpdateFromStage findFromPin
  by_cases h1 : cf = 1
  · rw [if_pos h1]
    simp only [h1, true_and]
    cases hfind : (H.pins he).find? (fun u => s.partIds u == some pfrom) with
    | none => simp
    | some u =>
      by_cases hx : x = u
      · subst hx
        simp [addBenefit]
      · simp [addBenefit, hx, Ne.symm hx]
  · rw [if_neg h1]
    by_cases h0 : cf = 0
    · rw [if_pos h0, foldl_addPenalty_benefit]
      simp [h1]
    · rw [if_neg h0]
      simp [h1]

/-- The `c_from` stage's effect on the penalty table (pins duplicate-free). -/
lemma gainCacheUpdateFromStage_penalty (H : Hypergraph) (s : PHG) (he : ℕ)
    (we : ℤ) (pfrom cf : ℕ) (hnd : (H.pins he).Nodup) (x q : ℕ) :
    (gainCacheUpdateFromStage H s he we pfrom cf).moveToPenalty x q =
      s.moveToPenalty x q +
        (if cf = 0 ∧ x ∈ H.pins he ∧ q = pfrom then we else 0) := by
  unfold gainCacheUpdateFromStage
  by_cases h1 : cf = 1
  · rw [if_pos h1]
    have hne : cf ≠ 0 := by rw [h1]; exact one_ne_zero
    cases hfind : (H.pins he).find? (fun u => s.partIds u == some pfrom) with
    | none => simp [hne]
    | some u => simp [addBenefit, hne]
  · rw [if_neg h1]
    by_cases h0 : cf = 0
    · rw [if_pos h0]
      simp only [h0, true_and]
      exact foldl_addPenalty_value pfrom we (H.pins he) hnd s x q
    · rw [if_neg h0]
      simp [h0]

/-- Full characterization of the effect of `gainCacheUpdate` on the benefit
table: the `c_from = 1` trigger adds `we` to the first pin found in `pfrom`,
the `c_to = 2` trigger subtracts `we` from every pin whose part id is `pto`,
and nothing else changes. -/
lemma gainCacheUpdate_benefit (H : Hypergraph) (s : PHG) (he : ℕ) (we : ℤ)
    (pfrom cf pto ct : ℕ) (hnd : (H.pins he).Nodup) (x : ℕ) :
    (gainCacheUpdate H s he we pfrom cf pto ct).moveFromBenefit x =
      s.moveFromBenefit x +
        (if cf = 1 ∧ findFromPin H s.partIds he pfrom = some x then we else 0) +
        (if ct = 2 ∧ x ∈ H.pins he ∧ s.partIds x = some pto then -we else 0) := by
  rw [gainCacheUpdate_eq_stages]
  have hstage := gainCacheUpdateFromStage_benefit H s he we pfrom cf x
  have hpid := (gainCacheUpdateFromStage_baseEq H s he we pfrom cf).2.1
  by_cases hc1 : ct = 1
  · rw [if_pos hc1, foldl_addPenalty_benefit, hstage]
    have hne : ct ≠ 2 := by omega
    simp [hne]
  · rw [if_neg hc1]
    by_cases hc2 : ct = 2
    · rw [if_pos hc2, foldl_condAddBenefit_value pto (-we) (H.pins he) hnd, hstage, hpid]
      simp only [hc2, true_and]
    · rw [if_neg hc2, hstage]
      simp [hc2]

/-- Full characterization of the effect of `gainCacheUpdate` on the penalty
table: the `c_from = 0` trigger adds `we` to `penalty[u][pfrom]` for every
pin `u`, the `c_to = 1` trigger subtracts `we` from `penalty[u][pto]` for
every pin, and nothing else changes. -/
lemma gainCacheUpdate_penalty (H : Hypergraph) (s : PHG) (he : ℕ) (we : ℤ)
    (pfrom cf pto ct : ℕ) (hnd : (H.pins he).Nodup) (x q : ℕ) :
    (gainCacheUpdate H s he we pfrom cf pto ct).moveToPenalty x q =
      s.moveToPenalty x q +
        (if cf = 0 ∧ x ∈ H.pins he ∧ q = pfrom then we else 0) +
        (if ct = 1 ∧ x ∈ H.pins he ∧ q = pto then -we else 0) := by
  rw [gainCacheUpdate_eq_stages]
  have hstage := gainCacheUpdateFromStage_penalty H s he we pfrom cf hnd x q
  by_cases hc1 : ct = 1
  · rw [if_pos hc1, foldl_addPenalty_value pto (-we) (H.pins he) hnd, hstage]
    simp only [hc1, true_and]
  · rw [if_neg hc1]
    by_cases hc2 : ct = 2
    · rw [if_pos hc2, (foldl_condAddBenefit_base pto (-we) (H.pins he) _).2, hstage]
      simp [hc1]
    · rw [if_neg hc2, hstage]
      simp [hc1]

/-- C9: the postfix decrement of `IntegralAtomicWrapper` should store `x - 1`
and return the previous value `x` (the behaviour of postfix decrement on the
underlying `std::atomic`), but its body is `return _value++`: at the failing
input 5 the code stores 6 and returns 5, while the correct operation stores
4. -/
theorem C9_postDecrementOp_code_bug :
    IntegralAtomicWrapper.postDecrementOp 5 = (5, 6) ∧
    IntegralAtomicWrapper.atomicPostDecrementSpec 5 = (5, 4) := by
  exact ⟨rfl, rfl⟩

/-- C10: `try_pop` on an empty `ConcurrentDataContainer` returns `false` but
does not leave the container unchanged — the unconditional `fetch_sub` wraps
the `size_t` size to `2^64 - 1`, so a subsequent `empty()` returns `false`
and a subsequent `push_back` stores its element at index `2^64 - 1` instead
of 0. -/
theorem C10_try_pop_empty_code_bug :
    (ConcurrentDataContainer.try_pop (ConcurrentDataContainer.create ℕ)).1 = false ∧
    (ConcurrentDataContainer.try_pop (ConcurrentDataContainer.create ℕ)).2.2.size =
      2 ^ 64 - 1 ∧
    ConcurrentDataContainer.empty
      (ConcurrentDataContainer.try_pop (ConcurrentDataContainer.create ℕ)).2.2 = false ∧
    (ConcurrentDataContainer.push_back
      (ConcurrentDataContainer.try_pop (ConcurrentDataContainer.create ℕ)).2.2 7).2 =
      2 ^ 64 - 1 := by
  refine ⟨rfl, by decide, by decide, by decide⟩

/-- Definitional unfolding of the move primitive with its let-bindings
inlined. -/
lemma changeNodePartCore_eq (H : Hypergraph) (g : Bool) (u pfrom pto : ℕ)
    (mw : ℤ) (s : PHG) :
    changeNodePartCore H g u pfrom pto mw s =
      if s.partWeights pto + H.nodeWeight u ≤ mw ∧
          0 < s.partWeights pfrom - H.nodeWeight u then
        (true,
          (H.incidentEdges u).foldl (updatePinCountOfHyperedge H g pfrom pto)
            { speculativeWeights s pfrom pto (H.nodeWeight u) with
              partIds := fun x => if x = u then some pto
                else (speculativeWeights s pfrom pto (H.nodeWeight u)).partIds x })
      else
        (false,
          speculativeWeights (speculativeWeights s pfrom pto (H.nodeWeight u))
            pto pfrom (H.nodeWeight u)) := rfl

/-- C2: `changeNodePart(u, from, to, max_weight_to, ...)` succeeds exactly
when the weight of `to` after adding `node_weight(u)` is at most
`max_weight_to` and the weight of `from` after subtracting `node_weight(u)`
is still positive; on failure it returns `false` and the speculative weight
deltas are undone, leaving the whole state (part ids, pin counts,
connectivity sets, gain cache, part weights) exactly as before the call. -/
theorem C2_changeNodePart_balance (H : Hypergraph) (g : Bool) (u pfrom pto : ℕ)
    (mw : ℤ) (s : PHG) :
    ((changeNodePartCore H g u pfrom pto mw s).1 = true ↔
      s.partWeights pto + H.nodeWeight u ≤ mw ∧
        0 < s.partWeights pfrom - H.nodeWeight u) ∧
    ((changeNodePartCore H g u pfrom pto mw s).1 = false →
      (changeNodePartCore H g u pfrom pto mw s).2 = s) := by
  have hrestore :
      speculativeWeights (speculativeWeights s pfrom pto (H.nodeWeight u)) pto pfrom
        (H.nodeWeight u) = s := by
    obtain ⟨k, pi, pw, pc, cs, mb, mp⟩ := s
    simp only [speculativeWeights, PHG.mk.injEq, and_true, true_and]
    funext p
    ring
  by_cases h : s.partWeights pto + H.nodeWeight u ≤ mw ∧
      0 < s.partWeights pfrom - H.nodeWeight u
  · rw [changeNodePartCore_eq, if_pos h]
    exact ⟨by simpa using h, by intro hfalse; exact absurd hfalse (by simp)⟩
  · rw [changeNodePartCore_eq, if_neg h]
    exact ⟨by simpa using h, fun _ => hrestore⟩

/-- Witness for C2: spec scenario 1 — on `Hex1` with `part_id = [0,1]`,
moving vertex 0 out of block 0 would empty the block, so the move is rejected
and the state is returned unchanged. -/
theorem C2_changeNodePart_balance_witness :
    (changeNodePart Hex1 0 0 1 10 s1).1 = false ∧
    (changeNodePart Hex1 0 0 1 10 s1).2 = s1 := by
  have h := C2_changeNodePart_balance Hex1 false 0 0 1 10 s1
  have hf : (changeNodePartCore Hex1 false 0 0 1 10 s1).1 = false := by decide
  exact ⟨hf, h.2 hf⟩

/-- C1, counterexample (spec scenario 3): on `Hex3` with `part_id =
[0,0,0,1]` and an initialized gain cache, moving vertex 2 from block 0 to
block 1 succeeds and leaves pin count 2 in the to-block of the single
incident edge, so the claim predicts that only the other pin in block 1
(vertex 3) has its benefit decremented and that the benefit of the moved
vertex 2 is untouched (it would remain 0).  The code decrements vertex 3's
benefit (1 becomes 0) but also vertex 2's benefit, which becomes -1. -/
theorem C1_counterexample :
    (changeNodePartFullUpdate Hex3 2 0 1 100 s3).1 = true ∧
    (changeNodePartFullUpdate Hex3 2 0 1 100 s3).2.pinCounts 0 1 = 2 ∧
    s3.moveFromBenefit 2 = 0 ∧ s3.moveFromBenefit 3 = 1 ∧
    (changeNodePartFullUpdate Hex3 2 0 1 100 s3).2.moveFromBenefit 3 = 0 ∧
    (changeNodePartFullUpdate Hex3 2 0 1 100 s3).2.moveFromBenefit 2 = -1 := by
  decide

/-- C1, amended: when the pin count of `he` in `to` after the update equals
2, the gain-cache delta update decrements `move_from_benefit` by the edge
weight for every pin of `he` whose (already updated) part id is `to` — that
is both the other pin `u` and the moved vertex `v` itself — and changes the
benefit of no other pin (the only other benefit change is the `c_from = 1`
trigger, which adds the weight to the first pin left in `from`). -/
theorem C1_to2_trigger_amended (H : Hypergraph) (s : PHG) (he : ℕ) (we : ℤ)
    (pfrom cf pto : ℕ) (hnd : (H.pins he).Nodup) (x : ℕ) :
    (gainCacheUpdate H s he we pfrom cf pto 2).moveFromBenefit x =
      s.moveFromBenefit x +
        (if cf = 1 ∧ findFromPin H s.partIds he pfrom = some x then we else 0) -
        (if x ∈ H.pins he ∧ s.partIds x = some pto then we else 0) := by
  have h := gainCacheUpdate_benefit H s he we pfrom cf pto 2 hnd x
  have h2 : (if (2 : ℕ) = 2 ∧ x ∈ H.pins he ∧ s.partIds x = some pto then -we else 0) =
      -(if x ∈ H.pins he ∧ s.partIds x = some pto then we else 0) := by
    by_cases hc : x ∈ H.pins he ∧ s.partIds x = some pto
    · rw [if_pos (⟨rfl, hc⟩ : (2 : ℕ) = 2 ∧ x ∈ H.pins he ∧ s.partIds x = some pto),
        if_pos hc]
    · rw [if_neg (fun hcon => hc hcon.2), if_neg hc]
      exact neg_zero.symm
  rw [h, h2]
  ring

/-- Witness for the amended C1: the scenario-3 trigger applied to the state
in which vertex 2 has already been assigned to block 1; both pins of block 1
(vertices 2 and 3) have their benefit decremented by the edge weight 1. -/
theorem C1_to2_trigger_amended_witness :
    (Hex3.pins 0).Nodup ∧
    (gainCacheUpdate Hex3 s3moved 0 1 0 2 1 2).moveFromBenefit 2 =
      s3moved.moveFromBenefit 2 - 1 ∧
    (gainCacheUpdate Hex3 s3moved 0 1 0 2 1 2).moveFromBenefit 3 =
      s3moved.moveFromBenefit 3 - 1 := by
  refine ⟨by decide, ?_, ?_⟩
  · have h := C1_to2_trigger_amended Hex3 s3moved 0 1 0 2 1 (by decide) 2
    rw [h, if_neg (by decide), if_pos (by decide)]
    ring
  · have h := C1_to2_trigger_amended Hex3 s3moved 0 1 0 2 1 (by decide) 3
    rw [h, if_neg (by decide), if_pos (by decide)]
    ring

/-- C8, counterexample: vertex 0 of `HexBig` has degree 100001 and its
incident edge 0 spans both blocks (connectivity 2 > 1), so the claim says
`isBorderNode(0)` is true; the code skips the scan for vertices of degree
above `HIGH_DEGREE_THRESHOLD = 100000` and returns false. -/
theorem C8_counterexample :
    isBorderNode HexBig sBig 0 = false ∧
    0 ∈ HexBig.incidentEdges 0 ∧ 1 < connectivity sBig 0 := by
  have hdeg : HexBig.nodeDegree 0 = 100001 := by
    simp [HexBig, Hypergraph.nodeDegree]
  refine ⟨?_, ?_, ?_⟩
  · unfold isBorderNode
    rw [if_neg (by rw [hdeg]; norm_num)]
  · have h0 : HexBig.incidentEdges 0 = List.range 100001 := by simp [HexBig]
    rw [h0]
    exact List.mem_range.mpr (by norm_num)
  · decide

/-- C8, amended: `isBorderNode(u)` returns true iff `u` has an incident edge
of connectivity above one, PROVIDED `degree(u) ≤ 100000`; for a vertex of
degree above `HIGH_DEGREE_THRESHOLD` the check is skipped and the result is
false regardless of its incident edges. -/
theorem C8_isBorderNode_amended (H : Hypergraph) (s : PHG) (u : ℕ) :
    (H.nodeDegree u ≤ 100000 →
      (isBorderNode H s u = true ↔
        ∃ e ∈ H.incidentEdges u, 1 < connectivity s e)) ∧
    (100000 < H.nodeDegree u → isBorderNode H s u = false) := by
  constructor
  · intro h
    unfold isBorderNode
    rw [if_pos h]
    simp [List.any_eq_true]
  · intro h
    unfold isBorderNode
    rw [if_neg (by omega)]

/-- Witness for the amended C8: on `Hex1` with one vertex per block, vertex 0
has degree 1 and its incident edge has connectivity 2, so it is a border
node. -/
theorem C8_isBorderNode_amended_witness :
    Hex1.nodeDegree 0 ≤ 100000 ∧ isBorderNode Hex1 s1 0 = true := by
  have h1 : Hex1.nodeDegree 0 ≤ 100000 := by decide
  refine ⟨h1, ?_⟩
  exact ((C8_isBorderNode_amended Hex1 s1 0).1 h1).mpr
    ⟨0, by decide, by decide⟩

/-- One step of the `bestDestinationBlock` loop preserves the invariant. -/
lemma bestDestStep_preserves (s : PHG) (u pfrom : ℕ) (wu : ℤ) (mpw : ℕ → ℤ)
    (proc : List ℕ) (B : BestDest) (i : ℕ)
    (h : bestDestInv s u pfrom wu mpw proc B) :
    bestDestInv s u pfrom wu mpw (proc ++ [i])
      (bestDestStep s u pfrom wu mpw B i) := by
  obtain ⟨hnone, hsome⟩ := h
  unfold bestDestStep
  by_cases hif : i ≠ pfrom
  · rw [if_pos hif]
    by_cases hacc : betterDest (s.moveToPenalty u i) (s.partWeights i) B ∧
        s.partWeights i + wu ≤ mpw i
    · rw [if_pos hacc]
      constructor
      · intro hcon
        simp at hcon
      · intro b hb
        simp only at hb
        have hbi : b = i := by
          have := hb
          simp at this
          omega
        subst hbi
        refine ⟨List.mem_append.mpr (Or.inr (by simp)), ⟨hif, hacc.2⟩, rfl, rfl, ?_⟩
        intro j hj hfeasj
        rcases List.mem_append.mp hj with hj | hj
        · cases hB : B.toBlock with
          | none => exact absurd hfeasj ((hnone hB).2 j hj)
          | some b0 =>
            obtain ⟨_, _, hpen0, hw0, hmin0⟩ := hsome b0 hB
            have hj0 := hmin0 j hj hfeasj
            have hbet := hacc.1
            unfold betterDest at hbet
            rw [hpen0] at hbet
            simp only at hbet
            rw [hw0] at hbet
            rcases hbet with h1 | ⟨h1, h2⟩
            · rcases hj0 with h3 | ⟨h3, h4⟩
              · left; linarith
              · left; linarith
            · rcases hj0 with h3 | ⟨h3, h4⟩
              · left; linarith
              · right
                exact ⟨by linarith, by linarith⟩
        · have hji : j = b := by simpa using hj
          subst hji
          right
          exact ⟨rfl, le_refl _⟩
    · rw [if_neg hacc]
      constructor
      · intro hB
        obtain ⟨hpen, hfn⟩ := hnone hB
        refine ⟨hpen, fun j hj => ?_⟩
        rcases List.mem_append.mp hj with hj | hj
        · exact hfn j hj
        · have hji : j = i := by simpa using hj
          subst hji
          intro hfeas
          apply hacc
          refine ⟨?_, hfeas.2⟩
          unfold betterDest
          rw [hpen]
          trivial
      · intro b hb
        obtain ⟨hmem, hfeasb, hpen, hw, hmin⟩ := hsome b hb
        refine ⟨List.mem_append.mpr (Or.inl hmem), hfeasb, hpen, hw, ?_⟩
        intro j hj hfeasj
        rcases List.mem_append.mp hj with hj | hj
        · exact hmin j hj hfeasj
        · have hji : j = i := by simpa using hj
          subst hji
          have hnb : ¬ betterDest (s.moveToPenalty u j) (s.partWeights j) B :=
            fun hbet => hacc ⟨hbet, hfeasj.2⟩
          unfold betterDest at hnb
          rw [hpen] at hnb
          simp only at hnb
          push_neg at hnb
          obtain ⟨hnb1, hnb2⟩ := hnb
          by_cases heq : s.moveToPenalty u b = s.moveToPenalty u j
          · right
            refine ⟨heq, ?_⟩
            have := hnb2 heq.symm
            rw [hw] at this
            linarith
          · left
            have hle : s.moveToPenalty u b ≤ s.moveToPenalty u j := by linarith
            exact lt_of_le_of_ne hle heq
  · rw [if_neg hif]
    push_neg at hif
    constructor
    · intro hB
      obtain ⟨hpen, hfn⟩ := hnone hB
      refine ⟨hpen, fun j hj => ?_⟩
      rcases List.mem_append.mp hj with hj | hj
      · exact hfn j hj
      · have hji : j = i := by simpa using hj
        subst hji
        intro hfeas
        exact hfeas.1 hif
    · intro b hb
      obtain ⟨hmem, hfeasb, hpen, hw, hmin⟩ := hsome b hb
      refine ⟨List.mem_append.mpr (Or.inl hmem), hfeasb, hpen, hw, ?_⟩
      intro j hj hfeasj
      rcases List.mem_append.mp hj with hj | hj
      · exact hmin j hj hfeasj
      · have hji : j = i := by simpa using hj
        subst hji
        exact absurd hif hfeasj.1

/-- The `bestDestinationBlock` fold maintains the invariant over any list of
blocks. -/
lemma bestDest_foldl_inv (s : PHG) (u pfrom : ℕ) (wu : ℤ) (mpw : ℕ → ℤ) :
    ∀ (l proc : List ℕ) (B : BestDest),
      bestDestInv s u pfrom wu mpw proc B →
      bestDestInv s u pfrom wu mpw (proc ++ l)
        (l.foldl (bestDestStep s u pfrom wu mpw) B) := by
  intro l
  induction l with
  | nil =>
    intro proc B h
    simpa using h
  | cons a l ih =>
    intro proc B h
    have h1 := bestDestStep_preserves s u pfrom wu mpw proc B a h
    have h2 := ih (proc ++ [a]) _ h1
    simpa [List.append_assoc] using h2

/-- Definitional unfolding of `bestDestinationBlock`. -/
lemma bestDestinationBlock_eq (H : Hypergraph) (s : PHG) (u : ℕ)
    (mpw : ℕ → ℤ) :
    bestDestinationBlock H s u mpw =
      (match ((List.range s.k).foldl
          (bestDestStep s u (partIdOf s u) (H.nodeWeight u) mpw)
          ⟨none, none,
            s.partWeights (partIdOf s u) - H.nodeWeight u⟩ : BestDest).toBlock,
        ((List.range s.k).foldl
          (bestDestStep s u (partIdOf s u) (H.nodeWeight u) mpw)
          ⟨none, none,
            s.partWeights (partIdOf s u) - H.nodeWeight u⟩ : BestDest).toPenalty with
      | some t, some tp => (some t, some (s.moveFromBenefit u - tp))
      | _, _ => (none, none)) := rfl

/-- C7: `bestDestinationBlock(u)` returns a feasible block (different from
`part_id(u)`, weight after the addition within `max_part_weights`) whose
penalty is minimal among the feasible blocks, with ties broken by lower part
weight; the returned gain is `move_from_benefit(u) - move_to_penalty(u, b)`;
when no block is feasible it returns the invalid block (embedded as `none`,
the counterpart of `(INVALID_BLOCK, numeric_limits::min())`), and whenever a
feasible block exists one is returned. -/
theorem C7_bestDestinationBlock (H : Hypergraph) (s : PHG) (u : ℕ)
    (mpw : ℕ → ℤ) :
    ((∀ i < s.k, ¬ feasibleBlock H s u mpw i) →
      bestDestinationBlock H s u mpw = (none, none)) ∧
    (∀ b, (bestDestinationBlock H s u mpw).1 = some b →
      b < s.k ∧ feasibleBlock H s u mpw b ∧
      (bestDestinationBlock H s u mpw).2 =
        some (s.moveFromBenefit u - s.moveToPenalty u b) ∧
      ∀ i < s.k, feasibleBlock H s u mpw i →
        (s.moveToPenalty u b < s.moveToPenalty u i ∨
          (s.moveToPenalty u b = s.moveToPenalty u i ∧
            s.partWeights b ≤ s.partWeights i))) ∧
    ((∃ i, i < s.k ∧ feasibleBlock H s u mpw i) →
      ∃ b, (bestDestinationBlock H s u mpw).1 = some b) := by
  have hinit : bestDestInv s u (partIdOf s u) (H.nodeWeight u) mpw []
      ⟨none, none, s.partWeights (partIdOf s u) - H.nodeWeight u⟩ := by
    constructor
    · intro _
      exact ⟨rfl, by simp⟩
    · intro b hb
      simp at hb
  have hinv := bestDest_foldl_inv s u (partIdOf s u) (H.nodeWeight u) mpw
    (List.range s.k) [] _ hinit
  rw [List.nil_append] at hinv
  obtain ⟨hnone, hsome⟩ := hinv
  rw [bestDestinationBlock_eq]
  cases htb : ((List.range s.k).foldl
      (bestDestStep s u (partIdOf s u) (H.nodeWeight u) mpw)
      ⟨none, none,
        s.partWeights (partIdOf s u) - H.nodeWeight u⟩ : BestDest).toBlock with
  | none =>
    obtain ⟨hpen, hinf⟩ := hnone htb
    rw [hpen]
    refine ⟨fun _ => rfl, ?_, ?_⟩
    · intro b hb
      simp at hb
    · rintro ⟨i, hik, hfeas⟩
      exfalso
      exact hinf i (List.mem_range.mpr hik) hfeas
  | some b =>
    obtain ⟨hmem, hfeasb, hpen, _, hmin⟩ := hsome b htb
    rw [hpen]
    refine ⟨?_, ?_, ?_⟩
    · intro hinf
      exfalso
      exact hinf b (List.mem_range.mp hmem) hfeasb
    · intro b2 hb2
      simp only at hb2
      have hbb : b2 = b := by
        have := hb2
        simp at this
        omega
      subst hbb
      refine ⟨List.mem_range.mp hmem, hfeasb, rfl, ?_⟩
      intro i hik hfeas
      exact hmin i (List.mem_range.mpr hik) hfeas
    · intro _
      exact ⟨b, rfl⟩

/-- Witness for C7: on `Hex1` with `part_id = [0,1]`, the unique feasible
destination for vertex 0 is block 1, returned together with the gain
`benefit(0) - penalty(0, 1)`. -/
theorem C7_bestDestinationBlock_witness :
    (bestDestinationBlock Hex1 s1 0 (fun _ => 10)).1 = some 1 ∧
    feasibleBlock Hex1 s1 0 (fun _ => 10) 1 ∧
    (bestDestinationBlock Hex1 s1 0 (fun _ => 10)).2 =
      some (s1.moveFromBenefit 0 - s1.moveToPenalty 0 1) := by
  have h1 : (bestDestinationBlock Hex1 s1 0 (fun _ => 10)).1 = some 1 := by decide
  have h := (C7_bestDestinationBlock Hex1 s1 0 (fun _ => 10)).2.1 1 h1
  exact ⟨h1, h.2.1, h.2.2.1⟩

/-! ### Gain-cache initialization lemmas (claim C5) -/

/-- A conditional-accumulation fold is the sum of the guarded weights. -/
lemma foldl_condSum (f : ℕ → ℤ) (P : ℕ → Prop) [DecidablePred P] :
    ∀ (l : List ℕ) (a : ℤ),
      l.foldl (fun w e => if P e then w + f e else w) a =
        a + (l.map (fun e => if P e then f e else 0)).sum := by
  intro l
  induction l with
  | nil => intro a; simp
  | cons e l ih =>
    intro a
    simp only [List.foldl_cons, List.map_cons, List.sum_cons]
    rw [ih]
    by_cases hP : P e
    · rw [if_pos hP, if_pos hP]
      ring
    · rw [if_neg hP, if_neg hP]
      ring

/-- Pointwise subtraction of two mapped sums. -/
lemma list_sum_map_sub (f g : ℕ → ℤ) (l : List ℕ) :
    (l.map f).sum - (l.map g).sum = (l.map (fun e => f e - g e)).sum := by
  induction l with
  | nil => simp
  | cons a l ih =>
    simp only [List.map_cons, List.sum_cons]
    rw [← ih]
    ring

/-- Closed form of the `aggregate_contribution_of_he_for_vertex` fold: the
benefit accumulates the weights of the edges with a single pin in the
vertex's block, the incident weight accumulates all edge weights, and each
penalty entry loses the weights of the edges whose connectivity set contains
the block. -/
lemma foldl_aggregate_spec (H : Hypergraph) (s : PHG) (b0 : ℕ) :
    ∀ (l : List ℕ) (acc : GainAcc),
      (l.foldl (aggregateContribution H s b0) acc).benefit =
        acc.benefit +
          (l.map (fun e => if s.pinCounts e b0 = 1 then H.edgeWeight e else 0)).sum ∧
      (l.foldl (aggregateContribution H s b0) acc).incidentWeight =
        acc.incidentWeight + (l.map H.edgeWeight).sum ∧
      ∀ p, (l.foldl (aggregateContribution H s b0) acc).penalty p =
        acc.penalty p -
          (l.map (fun e => if s.connSet e p then H.edgeWeight e else 0)).sum := by
  intro l
  induction l with
  | nil => intro acc; simp
  | cons e l ih =>
    intro acc
    simp only [List.foldl_cons, List.map_cons, List.sum_cons]
    obtain ⟨ih1, ih2, ih3⟩ := ih (aggregateContribution H s b0 acc e)
    refine ⟨?_, ?_, ?_⟩
    · rw [ih1]
      simp only [aggregateContribution]
      ring
    · rw [ih2]
      simp only [aggregateContribution]
      ring
    · intro p
      rw [ih3 p]
      simp only [aggregateContribution]
      ring

/-- Mapping with a negated function negates the sum. -/
lemma list_sum_map_neg {α : Type} (f : α → ℤ) (l : List α) :
    (l.map (fun x => -(f x))).sum = -((l.map f).sum) := by
  induction l with
  | nil => simp
  | cons a l ih =>
    simp only [List.map_cons, List.sum_cons]
    rw [ih]
    ring

/-- C5: after `initializeGainInformation`, `move_from_benefit(v)` is the sum
of the weights of the incident edges with exactly one pin in `v`'s block, and
`move_to_penalty(v, p)` is the sum of the weights of the incident edges with
no pin in block `p` (given the connectivity-set invariant); moreover, for any
chunking of the incident edges, the high-degree path (chunked parallel
reduction) produces exactly the accumulator of the low-degree sequential
path. -/
theorem C5_initializeGainInformation (H : Hypergraph) (s : PHG)
    (hconn : ∀ e p, s.connSet e p = true ↔ 1 ≤ s.pinCounts e p) (v : ℕ) :
    (initializeGainInformation H s).moveFromBenefit v =
      ((H.incidentEdges v).map
        (fun e => if s.pinCounts e (partIdOf s v) = 1 then H.edgeWeight e else 0)).sum ∧
    (∀ p, (initializeGainInformation H s).moveToPenalty v p =
      ((H.incidentEdges v).map
        (fun e => if s.pinCounts e p = 0 then H.edgeWeight e else 0)).sum) ∧
    (∀ chunks : List (List ℕ), chunks.flatten = H.incidentEdges v →
      gainInfoHighDegree H s v chunks = gainInfoLowDegree H s v) := by
  obtain ⟨hben, hiw, hpen⟩ :=
    foldl_aggregate_spec H s (partIdOf s v) (H.incidentEdges v) GainAcc.zero
  refine ⟨?_, ?_, ?_⟩
  · show (gainInfoLowDegree H s v).benefit = _
    rw [gainInfoLowDegree, hben]
    simp [GainAcc.zero]
  · intro p
    show (gainInfoLowDegree H s v).penalty p + (gainInfoLowDegree H s v).incidentWeight = _
    rw [gainInfoLowDegree, hpen p, hiw]
    simp only [GainAcc.zero, zero_sub, zero_add]
    rw [neg_add_eq_sub, list_sum_map_sub]
    congr 1
    refine List.map_congr_left ?_
    intro e _
    by_cases hc : s.connSet e p = true
    · have hge := (hconn e p).mp hc
      rw [if_pos hc, if_neg (by omega)]
      ring
    · have hval : s.connSet e p = false := by
        cases hcs : s.connSet e p
        · rfl
        · exact absurd hcs hc
      have h0 : s.pinCounts e p = 0 := by
        by_contra hne
        have : 1 ≤ s.pinCounts e p := by omega
        have := (hconn e p).mpr this
        rw [hval] at this
        cases this
      rw [hval, if_neg (by simp), if_pos h0]
      ring
  · intro chunks hjoin
    have hsum : ∀ (f : ℕ → ℤ),
        ((chunks.flatten).map f).sum =
          (chunks.map (fun ch => (ch.map f).sum)).sum := by
      intro f
      rw [List.map_flatten, List.sum_flatten, List.map_map]
      rfl
    have hlow : gainInfoLowDegree H s v =
        (chunks.flatten).foldl (aggregateContribution H s (partIdOf s v)) GainAcc.zero := by
      rw [gainInfoLowDegree, hjoin]
    obtain ⟨jben, jiw, jpen⟩ :=
      foldl_aggregate_spec H s (partIdOf s v) chunks.flatten GainAcc.zero
    refine GainAcc.ext ?_ ?_ ?_
    · show ((chunks.map
          (fun ch => ch.foldl (aggregateContribution H s (partIdOf s v)) GainAcc.zero)).map
            GainAcc.benefit).sum = (gainInfoLowDegree H s v).benefit
      rw [hlow, jben, List.map_map]
      simp only [GainAcc.zero, zero_add]
      rw [hsum]
      refine congrArg List.sum (List.map_congr_left (fun ch _ => ?_))
      obtain ⟨cben, _, _⟩ := foldl_aggregate_spec H s (partIdOf s v) ch GainAcc.zero
      simpa [Function.comp, GainAcc.zero] using cben
    · show ((chunks.map
          (fun ch => ch.foldl (aggregateContribution H s (partIdOf s v)) GainAcc.zero)).map
            GainAcc.incidentWeight).sum = (gainInfoLowDegree H s v).incidentWeight
      rw [hlow, jiw, List.map_map]
      simp only [GainAcc.zero, zero_add]
      rw [hsum]
      refine congrArg List.sum (List.map_congr_left (fun ch _ => ?_))
      obtain ⟨_, ciw, _⟩ := foldl_aggregate_spec H s (partIdOf s v) ch GainAcc.zero
      simpa [Function.comp, GainAcc.zero] using ciw
    · show (fun p => ((chunks.map
          (fun ch => ch.foldl (aggregateContribution H s (partIdOf s v)) GainAcc.zero)).map
            (fun a => a.penalty p)).sum) = (gainInfoLowDegree H s v).penalty
      funext p
      rw [hlow, jpen p, List.map_map]
      simp only [GainAcc.zero, zero_sub]
      rw [hsum, ← list_sum_map_neg]
      refine congrArg List.sum (List.map_congr_left (fun ch _ => ?_))
      obtain ⟨_, _, cpen⟩ := foldl_aggregate_spec H s (partIdOf s v) ch GainAcc.zero
      simpa [Function.comp, GainAcc.zero] using cpen p

/-- Witness for C5: the scenario-3 instance, with the incident edges of
vertex 3 chunked as a single block. -/
theorem C5_initializeGainInformation_witness :
    (∀ e p, s3pre.connSet e p = true ↔ 1 ≤ s3pre.pinCounts e p) ∧
    (initializeGainInformation Hex3 s3pre).moveFromBenefit 3 =
      ((Hex3.incidentEdges 3).map
        (fun e => if s3pre.pinCounts e (partIdOf s3pre 3) = 1 then
          Hex3.edgeWeight e else 0)).sum ∧
    gainInfoHighDegree Hex3 s3pre 3 [[0]] = gainInfoLowDegree Hex3 s3pre 3 := by
  have hconn : ∀ e p, s3pre.connSet e p = true ↔ 1 ≤ s3pre.pinCounts e p := by
    intro e p
    simp only [s3pre, initializePartition, initializePinCountInPart,
      decide_eq_true_eq]
    omega
  have h := C5_initializeGainInformation Hex3 s3pre hconn 3
  exact ⟨hconn, h.1, h.2.2 [[0]] (by decide)⟩

/-! ### Characterization of one move (claims C3, C4, C6) -/

/-- Definitional unfolding of the pin-count decrement. -/
lemma decrement_eq (s : PHG) (a p : ℕ) :
    decrementPinCountInPartWithoutGainUpdate s a p =
      if s.pinCounts a p - 1 = 0 then
        ({ s with
            pinCounts := fun e2 p2 =>
              if e2 = a ∧ p2 = p then s.pinCounts a p - 1 else s.pinCounts e2 p2,
            connSet := fun e2 p2 =>
              if e2 = a ∧ p2 = p then false else s.connSet e2 p2 },
          s.pinCounts a p - 1)
      else
        ({ s with
            pinCounts := fun e2 p2 =>
              if e2 = a ∧ p2 = p then s.pinCounts a p - 1 else s.pinCounts e2 p2 },
          s.pinCounts a p - 1) := rfl

/-- Definitional unfolding of the pin-count increment. -/
lemma increment_eq (s : PHG) (a p : ℕ) :
    incrementPinCountInPartWithoutGainUpdate s a p =
      if s.pinCounts a p + 1 = 1 then
        ({ s with
            pinCounts := fun e2 p2 =>
              if e2 = a ∧ p2 = p then s.pinCounts a p + 1 else s.pinCounts e2 p2,
            connSet := fun e2 p2 =>
              if e2 = a ∧ p2 = p then true else s.connSet e2 p2 },
          s.pinCounts a p + 1)
      else
        ({ s with
            pinCounts := fun e2 p2 =>
              if e2 = a ∧ p2 = p then s.pinCounts a p + 1 else s.pinCounts e2 p2 },
          s.pinCounts a p + 1) := rfl

/-- Field characterization of the pin-count decrement. -/
lemma decrement_spec (s : PHG) (a p : ℕ) :
    (decrementPinCountInPartWithoutGainUpdate s a p).2 = s.pinCounts a p - 1 ∧
    (decrementPinCountInPartWithoutGainUpdate s a p).1.k = s.k ∧
    (decrementPinCountInPartWithoutGainUpdate s a p).1.partIds = s.partIds ∧
    (decrementPinCountInPartWithoutGainUpdate s a p).1.partWeights = s.partWeights ∧
    (decrementPinCountInPartWithoutGainUpdate s a p).1.moveFromBenefit =
      s.moveFromBenefit ∧
    (decrementPinCountInPartWithoutGainUpdate s a p).1.moveToPenalty =
      s.moveToPenalty ∧
    (∀ e2 p2, (decrementPinCountInPartWithoutGainUpdate s a p).1.pinCounts e2 p2 =
      if e2 = a ∧ p2 = p then s.pinCounts a p - 1 else s.pinCounts e2 p2) ∧
    (∀ e2 p2, (decrementPinCountInPartWithoutGainUpdate s a p).1.connSet e2 p2 =
      if e2 = a ∧ p2 = p ∧ s.pinCounts a p - 1 = 0 then false
      else s.connSet e2 p2) := by
  rw [decrement_eq]
  by_cases hc : s.pinCounts a p - 1 = 0
  · rw [if_pos hc]
    refine ⟨rfl, rfl, rfl, rfl, rfl, rfl, fun e2 p2 => rfl, fun e2 p2 => ?_⟩
    show (if e2 = a ∧ p2 = p then false else s.connSet e2 p2) =
      if e2 = a ∧ p2 = p ∧ s.pinCounts a p - 1 = 0 then false else s.connSet e2 p2
    by_cases h2 : e2 = a ∧ p2 = p
    · rw [if_pos h2, if_pos ⟨h2.1, h2.2, hc⟩]
    · rw [if_neg h2, if_neg (fun hcon => h2 ⟨hcon.1, hcon.2.1⟩)]
  · rw [if_neg hc]
    refine ⟨rfl, rfl, rfl, rfl, rfl, rfl, fun e2 p2 => rfl, fun e2 p2 => ?_⟩
    show s.connSet e2 p2 =
      if e2 = a ∧ p2 = p ∧ s.pinCounts a p - 1 = 0 then false else s.connSet e2 p2
    rw [if_neg (fun hcon => hc hcon.2.2)]

/-- Field characterization of the pin-count increment. -/
lemma increment_spec (s : PHG) (a p : ℕ) :
    (incrementPinCountInPartWithoutGainUpdate s a p).2 = s.pinCounts a p + 1 ∧
    (incrementPinCountInPartWithoutGainUpdate s a p).1.k = s.k ∧
    (incrementPinCountInPartWithoutGainUpdate s a p).1.partIds = s.partIds ∧
    (incrementPinCountInPartWithoutGainUpdate s a p).1.partWeights = s.partWeights ∧
    (incrementPinCountInPartWithoutGainUpdate s a p).1.moveFromBenefit =
      s.moveFromBenefit ∧
    (incrementPinCountInPartWithoutGainUpdate s a p).1.moveToPenalty =
      s.moveToPenalty ∧
    (∀ e2 p2, (incrementPinCountInPartWithoutGainUpdate s a p).1.pinCounts e2 p2 =
      if e2 = a ∧ p2 = p then s.pinCounts a p + 1 else s.pinCounts e2 p2) ∧
    (∀ e2 p2, (incrementPinCountInPartWithoutGainUpdate s a p).1.connSet e2 p2 =
      if e2 = a ∧ p2 = p ∧ s.pinCounts a p + 1 = 1 then true
      else s.connSet e2 p2) := by
  rw [increment_eq]
  by_cases hc : s.pinCounts a p + 1 = 1
  · rw [if_pos hc]
    refine ⟨rfl, rfl, rfl, rfl, rfl, rfl, fun e2 p2 => rfl, fun e2 p2 => ?_⟩
    show (if e2 = a ∧ p2 = p then true else s.connSet e2 p2) =
      if e2 = a ∧ p2 = p ∧ s.pinCounts a p + 1 = 1 then true else s.connSet e2 p2
    by_cases h2 : e2 = a ∧ p2 = p
    · rw [if_pos h2, if_pos ⟨h2.1, h2.2, hc⟩]
    · rw [if_neg h2, if_neg (fun hcon => h2 ⟨hcon.1, hcon.2.1⟩)]
  · rw [if_neg hc]
    refine ⟨rfl, rfl, rfl, rfl, rfl, rfl, fun e2 p2 => rfl, fun e2 p2 => ?_⟩
    show s.connSet e2 p2 =
      if e2 = a ∧ p2 = p ∧ s.pinCounts a p + 1 = 1 then true else s.connSet e2 p2
    rw [if_neg (fun hcon => hc hcon.2.2)]

/-- Field characterization of one `updatePinCountOfHyperedge` step: the pin
counts and connectivity set of edge `a` change to the moved row, the gain
cache changes by the per-edge deltas, and everything else is untouched. -/
lemma updateEdge_spec (H : Hypergraph) (g : Bool) (pfrom pto : ℕ)
    (hne : pfrom ≠ pto) (t : PHG) (a : ℕ) (hnd : (H.pins a).Nodup) :
    (updatePinCountOfHyperedge H g pfrom pto t a).k = t.k ∧
    (updatePinCountOfHyperedge H g pfrom pto t a).partIds = t.partIds ∧
    (updatePinCountOfHyperedge H g pfrom pto t a).partWeights = t.partWeights ∧
    (∀ e p, (updatePinCountOfHyperedge H g pfrom pto t a).pinCounts e p =
      if e = a then movedRowCount pfrom pto (t.pinCounts a) p
      else t.pinCounts e p) ∧
    (∀ e p, (updatePinCountOfHyperedge H g pfrom pto t a).connSet e p =
      if e = a then movedRowConn pfrom pto (t.pinCounts a) (t.connSet a) p
      else t.connSet e p) ∧
    (∀ x, (updatePinCountOfHyperedge H g pfrom pto t a).moveFromBenefit x =
      t.moveFromBenefit x + moveEdgeDeltaBenefit H g pfrom pto t a x) ∧
    (∀ x q, (updatePinCountOfHyperedge H g pfrom pto t a).moveToPenalty x q =
      t.moveToPenalty x q + moveEdgeDeltaPenalty H g pfrom pto t a x q) := by
  have hne2 : pto ≠ pfrom := hne.symm
  obtain ⟨d2, dk, dpi, dpw, dmb, dmp, dpc, dcs⟩ := decrement_spec t a pfrom
  obtain ⟨i2, ik, ipi, ipw, imb, imp, ipc, ics⟩ :=
    increment_spec (decrementPinCountInPartWithoutGainUpdate t a pfrom).1 a pto
  have hstep : updatePinCountOfHyperedge H g pfrom pto t a =
      (if g then
        gainCacheUpdate H
          (incrementPinCountInPartWithoutGainUpdate
            (decrementPinCountInPartWithoutGainUpdate t a pfrom).1 a pto).1
          a (H.edgeWeight a) pfrom
          (decrementPinCountInPartWithoutGainUpdate t a pfrom).2 pto
          (incrementPinCountInPartWithoutGainUpdate
            (decrementPinCountInPartWithoutGainUpdate t a pfrom).1 a pto).2
      else
        (incrementPinCountInPartWithoutGainUpdate
          (decrementPinCountInPartWithoutGainUpdate t a pfrom).1 a pto).1) := rfl
  -- field values of the post-increment state
  have hpc2 : ∀ e p, (incrementPinCountInPartWithoutGainUpdate
      (decrementPinCountInPartWithoutGainUpdate t a pfrom).1 a pto).1.pinCounts e p =
      if e = a then movedRowCount pfrom pto (t.pinCounts a) p
      else t.pinCounts e p := by
    intro e p
    rw [ipc, dpc]
    by_cases hea : e = a
    · by_cases hpf : p = pfrom
      · have hpt : p ≠ pto := by rw [hpf]; exact hne
        simp [movedRowCount, hea, hpf, hpt, hne, hne2, dpc]
      · by_cases hpt : p = pto
        · simp [movedRowCount, hea, hpf, hpt, hne, hne2, dpc]
        · simp [movedRowCount, hea, hpf, hpt, dpc]
    · simp [hea, dpc]
  have hcs2 : ∀ e p, (incrementPinCountInPartWithoutGainUpdate
      (decrementPinCountInPartWithoutGainUpdate t a pfrom).1 a pto).1.connSet e p =
      if e = a then movedRowConn pfrom pto (t.pinCounts a) (t.connSet a) p
      else t.connSet e p := by
    intro e p
    rw [ics, dcs]
    by_cases hea : e = a
    · by_cases hpf : p = pfrom
      · have hpt : p ≠ pto := by rw [hpf]; exact hne
        by_cases h0 : t.pinCounts a pfrom - 1 = 0
        · simp [movedRowConn, hea, hpf, hpt, hne, hne2, dpc, h0]
        · simp [movedRowConn, hea, hpf, hpt, hne, hne2, dpc, h0]
      · by_cases hpt : p = pto
        · by_cases h1 : t.pinCounts a pto + 1 = 1
          · simp [movedRowConn, hea, hpf, hpt, hne, hne2, dpc, h1]
          · simp [movedRowConn, hea, hpf, hpt, hne, hne2, dpc, h1]
        · simp [movedRowConn, hea, hpf, hpt, dpc]
    · simp [hea]
  have hd2 : (decrementPinCountInPartWithoutGainUpdate t a pfrom).2 =
      t.pinCounts a pfrom - 1 := d2
  have hi2 : (incrementPinCountInPartWithoutGainUpdate
      (decrementPinCountInPartWithoutGainUpdate t a pfrom).1 a pto).2 =
      t.pinCounts a pto + 1 := by
    rw [i2, dpc]
    rw [if_neg (fun hcon => hne2 hcon.2)]
  have hpi2 : (incrementPinCountInPartWithoutGainUpdate
      (decrementPinCountInPartWithoutGainUpdate t a pfrom).1 a pto).1.partIds =
      t.partIds := ipi.trans dpi
  cases g with
  | false =>
    rw [hstep, if_neg (by simp)]
    exact ⟨ik.trans dk, hpi2, ipw.trans dpw, hpc2, hcs2,
      fun x => by rw [imb, dmb]; simp [moveEdgeDeltaBenefit],
      fun x q => by rw [imp, dmp]; simp [moveEdgeDeltaPenalty]⟩
  | true =>
    rw [hstep, if_pos rfl]
    obtain ⟨gk, gpi, gpw, gpc, gcs⟩ := gainCacheUpdate_baseEq H
      (incrementPinCountInPartWithoutGainUpdate
        (decrementPinCountInPartWithoutGainUpdate t a pfrom).1 a pto).1
      a (H.edgeWeight a) pfrom
      (decrementPinCountInPartWithoutGainUpdate t a pfrom).2 pto
      (incrementPinCountInPartWithoutGainUpdate
        (decrementPinCountInPartWithoutGainUpdate t a pfrom).1 a pto).2
    refine ⟨gk.trans (ik.trans dk), gpi.trans hpi2, gpw.trans (ipw.trans dpw),
      ?_, ?_, ?_, ?_⟩
    · intro e p
      rw [gpc]
      exact hpc2 e p
    · intro e p
      rw [gcs]
      exact hcs2 e p
    · intro x
      rw [gainCacheUpdate_benefit _ _ _ _ _ _ _ _ hnd, hd2, hi2, imb, dmb, hpi2]
      unfold moveEdgeDeltaBenefit findFromPin
      rw [if_pos rfl]
      ring
    · intro x q
      rw [gainCacheUpdate_penalty _ _ _ _ _ _ _ _ hnd, hd2, hi2, imp, dmp]
      unfold moveEdgeDeltaPenalty
      rw [if_pos rfl]
      ring

/-- The per-edge gain-cache deltas depend only on the part ids and on the
pin-count row of the edge itself. -/
lemma moveEdgeDelta_congr (H : Hypergraph) (g : Bool) (pfrom pto : ℕ)
    (t s0 : PHG) (e : ℕ) (hpi : t.partIds = s0.partIds)
    (hpcf : t.pinCounts e pfrom = s0.pinCounts e pfrom)
    (hpct : t.pinCounts e pto = s0.pinCounts e pto) :
    (∀ x, moveEdgeDeltaBenefit H g pfrom pto t e x =
      moveEdgeDeltaBenefit H g pfrom pto s0 e x) ∧
    (∀ x q, moveEdgeDeltaPenalty H g pfrom pto t e x q =
      moveEdgeDeltaPenalty H g pfrom pto s0 e x q) := by
  unfold moveEdgeDeltaBenefit moveEdgeDeltaPenalty findFromPin
  rw [hpi, hpcf, hpct]
  exact ⟨fun x => rfl, fun x q => rfl⟩

/-- Characterization of the whole edge loop of a move: each incident edge's
pin-count and connectivity rows are moved once, and the gain cache receives
the sum of the per-edge deltas, all expressed over the state at the start of
the loop. -/
lemma moveFold_spec (H : Hypergraph) (g : Bool) (pfrom pto : ℕ)
    (hne : pfrom ≠ pto) :
    ∀ (l : List ℕ), l.Nodup → (∀ e ∈ l, (H.pins e).Nodup) → ∀ (s0 : PHG),
      (l.foldl (updatePinCountOfHyperedge H g pfrom pto) s0).k = s0.k ∧
      (l.foldl (updatePinCountOfHyperedge H g pfrom pto) s0).partIds = s0.partIds ∧
      (l.foldl (updatePinCountOfHyperedge H g pfrom pto) s0).partWeights =
        s0.partWeights ∧
      (∀ e p, (l.foldl (updatePinCountOfHyperedge H g pfrom pto) s0).pinCounts e p =
        if e ∈ l then movedRowCount pfrom pto (s0.pinCounts e) p
        else s0.pinCounts e p) ∧
      (∀ e p, (l.foldl (updatePinCountOfHyperedge H g pfrom pto) s0).connSet e p =
        if e ∈ l then movedRowConn pfrom pto (s0.pinCounts e) (s0.connSet e) p
        else s0.connSet e p) ∧
      (∀ x, (l.foldl (updatePinCountOfHyperedge H g pfrom pto) s0).moveFromBenefit x =
        s0.moveFromBenefit x +
          (l.map (fun e => moveEdgeDeltaBenefit H g pfrom pto s0 e x)).sum) ∧
      (∀ x q, (l.foldl (updatePinCountOfHyperedge H g pfrom pto) s0).moveToPenalty x q =
        s0.moveToPenalty x q +
          (l.map (fun e => moveEdgeDeltaPenalty H g pfrom pto s0 e x q)).sum) := by
  intro l
  induction l with
  | nil =>
    intro _ _ s0
    exact ⟨rfl, rfl, rfl, fun e p => by simp, fun e p => by simp,
      fun x => by simp, fun x q => by simp⟩
  | cons a l ih =>
    intro hnd hpins s0
    obtain ⟨ha, hl⟩ := List.nodup_cons.mp hnd
    obtain ⟨sk, spi, spw, spc, scs, smb, smp⟩ :=
      updateEdge_spec H g pfrom pto hne s0 a (hpins a (by simp))
    obtain ⟨fk, fpi, fpw, fpc, fcs, fmb, fmp⟩ :=
      ih hl (fun e he => hpins e (by simp [he]))
        (updatePinCountOfHyperedge H g pfrom pto s0 a)
    have hrow : ∀ e, e ≠ a →
        (∀ p, (updatePinCountOfHyperedge H g pfrom pto s0 a).pinCounts e p =
          s0.pinCounts e p) := by
      intro e hea p
      rw [spc]
      exact if_neg hea
    have hrowc : ∀ e, e ≠ a →
        (∀ p, (updatePinCountOfHyperedge H g pfrom pto s0 a).connSet e p =
          s0.connSet e p) := by
      intro e hea p
      rw [scs]
      exact if_neg hea
    simp only [List.foldl_cons]
    refine ⟨fk.trans sk, fpi.trans spi, fpw.trans spw, ?_, ?_, ?_, ?_⟩
    · intro e p
      rw [fpc]
      by_cases hel : e ∈ l
      · have hea : e ≠ a := fun hc => ha (hc ▸ hel)
        rw [if_pos hel, if_pos (List.mem_cons.mpr (Or.inr hel))]
        have : (updatePinCountOfHyperedge H g pfrom pto s0 a).pinCounts e =
            s0.pinCounts e := funext (hrow e hea)
        rw [this]
      · rw [if_neg hel, spc]
        by_cases hea : e = a
        · rw [if_pos hea, if_pos (List.mem_cons.mpr (Or.inl hea))]
          subst hea
          rfl
        · rw [if_neg hea,
            if_neg (fun hc => (List.mem_cons.mp hc).elim hea hel)]
    · intro e p
      rw [fcs]
      by_cases hel : e ∈ l
      · have hea : e ≠ a := fun hc => ha (hc ▸ hel)
        rw [if_pos hel, if_pos (List.mem_cons.mpr (Or.inr hel))]
        have h1 : (updatePinCountOfHyperedge H g pfrom pto s0 a).pinCounts e =
            s0.pinCounts e := funext (hrow e hea)
        have h2 : (updatePinCountOfHyperedge H g pfrom pto s0 a).connSet e =
            s0.connSet e := funext (hrowc e hea)
        rw [h1, h2]
      · rw [if_neg hel, scs]
        by_cases hea : e = a
        · rw [if_pos hea, if_pos (List.mem_cons.mpr (Or.inl hea))]
          subst hea
          rfl
        · rw [if_neg hea,
            if_neg (fun hc => (List.mem_cons.mp hc).elim hea hel)]
    · intro x
      rw [fmb, smb]
      have hcongr : ∀ e ∈ l,
          moveEdgeDeltaBenefit H g pfrom pto
            (updatePinCountOfHyperedge H g pfrom pto s0 a) e x =
          moveEdgeDeltaBenefit H g pfrom pto s0 e x := by
        intro e hel
        have hea : e ≠ a := fun hc => ha (hc ▸ hel)
        exact (moveEdgeDelta_congr H g pfrom pto _ s0 e spi
          (hrow e hea pfrom) (hrow e hea pto)).1 x
      rw [List.map_congr_left hcongr]
      simp only [List.map_cons, List.sum_cons]
      ring
    · intro x q
      rw [fmp, smp]
      have hcongr : ∀ e ∈ l,
          moveEdgeDeltaPenalty H g pfrom pto
            (updatePinCountOfHyperedge H g pfrom pto s0 a) e x q =
          moveEdgeDeltaPenalty H g pfrom pto s0 e x q := by
        intro e hel
        have hea : e ≠ a := fun hc => ha (hc ▸ hel)
        exact (moveEdgeDelta_congr H g pfrom pto _ s0 e spi
          (hrow e hea pfrom) (hrow e hea pto)).2 x q
      rw [List.map_congr_left hcongr]
      simp only [List.map_cons, List.sum_cons]
      ring

/-- A successful move runs the edge loop from `moveInitState`. -/
lemma changeNodePartCore_success_eq (H : Hypergraph) (g : Bool)
    (u pfrom pto : ℕ) (mw : ℤ) (s : PHG)
    (hcond : s.partWeights pto + H.nodeWeight u ≤ mw ∧
      0 < s.partWeights pfrom - H.nodeWeight u) :
    (changeNodePartCore H g u pfrom pto mw s).2 =
      (H.incidentEdges u).foldl (updatePinCountOfHyperedge H g pfrom pto)
        (moveInitState H s u pfrom pto) := by
  rw [changeNodePartCore_eq, if_pos hcond]
  rfl

/-- A successful move implies its balance condition. -/
lemma changeNodePartCore_cond_of_success (H : Hypergraph) (g : Bool)
    (u pfrom pto : ℕ) (mw : ℤ) (s : PHG)
    (hsucc : (changeNodePartCore H g u pfrom pto mw s).1 = true) :
    s.partWeights pto + H.nodeWeight u ≤ mw ∧
      0 < s.partWeights pfrom - H.nodeWeight u := by
  by_contra hcond
  rw [changeNodePartCore_eq, if_neg hcond] at hsucc
  simp at hsucc

/-- Full characterization of a successful move over the pre-move state. -/
lemma moveSuccess_spec (H : Hypergraph) (g : Bool) (u pfrom pto : ℕ) (mw : ℤ)
    (s : PHG) (hne : pfrom ≠ pto) (hndI : (H.incidentEdges u).Nodup)
    (hndP : ∀ e ∈ H.incidentEdges u, (H.pins e).Nodup)
    (hsucc : (changeNodePartCore H g u pfrom pto mw s).1 = true) :
    (changeNodePartCore H g u pfrom pto mw s).2.k = s.k ∧
    (∀ x, (changeNodePartCore H g u pfrom pto mw s).2.partIds x =
      if x = u then some pto else s.partIds x) ∧
    (∀ p, (changeNodePartCore H g u pfrom pto mw s).2.partWeights p =
      s.partWeights p + (if p = pto then H.nodeWeight u else 0) -
        (if p = pfrom then H.nodeWeight u else 0)) ∧
    (∀ e p, (changeNodePartCore H g u pfrom pto mw s).2.pinCounts e p =
      if e ∈ H.incidentEdges u then movedRowCount pfrom pto (s.pinCounts e) p
      else s.pinCounts e p) ∧
    (∀ e p, (changeNodePartCore H g u pfrom pto mw s).2.connSet e p =
      if e ∈ H.incidentEdges u then
        movedRowConn pfrom pto (s.pinCounts e) (s.connSet e) p
      else s.connSet e p) ∧
    (∀ x, (changeNodePartCore H g u pfrom pto mw s).2.moveFromBenefit x =
      s.moveFromBenefit x + ((H.incidentEdges u).map
        (fun e => moveEdgeDeltaBenefit H g pfrom pto
          (moveInitState H s u pfrom pto) e x)).sum) ∧
    (∀ x q, (changeNodePartCore H g u pfrom pto mw s).2.moveToPenalty x q =
      s.moveToPenalty x q + ((H.incidentEdges u).map
        (fun e => moveEdgeDeltaPenalty H g pfrom pto
          (moveInitState H s u pfrom pto) e x q)).sum) := by
  have hcond := changeNodePartCore_cond_of_success H g u pfrom pto mw s hsucc
  rw [changeNodePartCore_success_eq H g u pfrom pto mw s hcond]
  obtain ⟨fk, fpi, fpw, fpc, fcs, fmb, fmp⟩ :=
    moveFold_spec H g pfrom pto hne (H.incidentEdges u) hndI hndP
      (moveInitState H s u pfrom pto)
  refine ⟨fk, ?_, ?_, ?_, ?_, ?_, ?_⟩
  · intro x
    rw [fpi]
    rfl
  · intro p
    rw [fpw]
    rfl
  · intro e p
    rw [fpc]
    rfl
  · intro e p
    rw [fcs]
    rfl
  · intro x
    rw [fmb]
    rfl
  · intro x q
    rw [fmp]
    rfl

/-! ### Counting lemmas for the tracked invariants -/

/-- Two predicates agreeing on a list count the same. -/
lemma countP_congr_mem (l : List ℕ) (P Q : ℕ → Bool)
    (h : ∀ x ∈ l, P x = Q x) : l.countP P = l.countP Q := by
  induction l with
  | nil => rfl
  | cons a l ih =>
    rw [List.countP_cons, List.countP_cons, h a (by simp),
      ih (fun x hx => h x (by simp [hx]))]

/-- Flipping a predicate from true to false at one element of a
duplicate-free list lowers the count by one. -/
lemma countP_flip (l : List ℕ) (hnd : l.Nodup) (u : ℕ) (hu : u ∈ l)
    (P Q : ℕ → Bool) (hPu : P u = true) (hQu : Q u = false)
    (hPQ : ∀ x ∈ l, x ≠ u → P x = Q x) :
    l.countP P = l.countP Q + 1 := by
  induction l with
  | nil => cases hu
  | cons a l ih =>
    obtain ⟨hal, hl⟩ := List.nodup_cons.mp hnd
    rw [List.countP_cons, List.countP_cons]
    rcases List.mem_cons.mp hu with hua | hul
    · have hcongr : l.countP P = l.countP Q := by
        refine countP_congr_mem l P Q (fun x hx => ?_)
        have hxa : x ≠ a := fun hc => hal (hc ▸ hx)
        exact hPQ x (by simp [hx]) (fun hxu => hxa (hxu.trans hua))
      rw [hcongr, ← hua, hPu, hQu]
      simp
    · have hau : a ≠ u := fun hc => hal (hc ▸ hul)
      have hPQa : P a = Q a := hPQ a (by simp) hau
      rw [ih hl hul (fun x hx hxu => hPQ x (by simp [hx]) hxu), hPQa]
      omega

/-- A filtered-then-mapped weight sum equals the guarded sum. -/
lemma filter_map_sum_eq (w : ℕ → ℤ) (P : ℕ → Bool) (l : List ℕ) :
    ((l.filter P).map w).sum = (l.map (fun v => if P v then w v else 0)).sum := by
  induction l with
  | nil => rfl
  | cons a l ih =>
    rw [List.filter_cons]
    by_cases hP : P a
    · simp only [hP, if_true, List.map_cons, List.sum_cons]
      rw [ih]
    · simp only [hP, Bool.false_eq_true, if_false, List.map_cons, List.sum_cons]
      rw [ih]
      simp

/-- Flipping a predicate at one element of a duplicate-free list changes the
guarded weight sum by the flip at that element. -/
lemma ite_sum_flip (w : ℕ → ℤ) :
    ∀ (l : List ℕ), l.Nodup → ∀ (u : ℕ), u ∈ l →
      ∀ (P Q : ℕ → Bool), (∀ x ∈ l, x ≠ u → P x = Q x) →
      (l.map (fun v => if Q v then w v else 0)).sum =
        (l.map (fun v => if P v then w v else 0)).sum +
          (if Q u then w u else 0) - (if P u then w u else 0) := by
  intro l
  induction l with
  | nil => intro _ u hu; cases hu
  | cons a l ih =>
    intro hnd u hu P Q hPQ
    obtain ⟨hal, hl⟩ := List.nodup_cons.mp hnd
    simp only [List.map_cons, List.sum_cons]
    rcases List.mem_cons.mp hu with hua | hul
    · have hmap : l.map (fun v => if Q v then w v else 0) =
          l.map (fun v => if P v then w v else 0) := by
        refine List.map_congr_left (fun x hx => ?_)
        have hxa : x ≠ a := fun hc => hal (hc ▸ hx)
        rw [hPQ x (by simp [hx]) (fun hxu => hxa (hxu.trans hua))]
      rw [hmap, ← hua]
      ring
    · have hau : a ≠ u := fun hc => hal (hc ▸ hul)
      have hPQa : P a = Q a := hPQ a (by simp) hau
      rw [ih hl u hul P Q (fun x hx hxu => hPQ x (by simp [hx]) hxu), hPQa]
      ring

/-- A successful move preserves the tracked invariants. -/
lemma tracked_move (H : Hypergraph) (hwf : H.Wellformed) (g : Bool)
    (s : PHG) (u pfrom pto : ℕ) (mw : ℤ) (ht : Tracked H s)
    (hu : u < H.numNodes) (hpart : s.partIds u = some pfrom)
    (hne : pfrom ≠ pto) (hto : pto < s.k)
    (hsucc : (changeNodePartCore H g u pfrom pto mw s).1 = true) :
    Tracked H (changeNodePartCore H g u pfrom pto mw s).2 := by
  obtain ⟨mk, mpi, mpw, mpc, mcs, _, _⟩ :=
    moveSuccess_spec H g u pfrom pto mw s hne (hwf.incident_nodup u)
      (fun e _ => hwf.pins_nodup e) hsucc
  have hpredeq : ∀ (p : ℕ), ∀ (x : ℕ), x ≠ u →
      ((changeNodePartCore H g u pfrom pto mw s).2.partIds x == some p) =
        (s.partIds x == some p) := by
    intro p x hxu
    rw [mpi x, if_neg hxu]
  have hnewu : ∀ (p : ℕ),
      ((changeNodePartCore H g u pfrom pto mw s).2.partIds u == some p) =
        decide (pto = p) := by
    intro p
    rw [mpi u, if_pos rfl]
    by_cases hp : pto = p
    · simp [hp]
    · simp [hp]
  have holdu : ∀ (p : ℕ),
      (s.partIds u == some p) = decide (pfrom = p) := by
    intro p
    rw [hpart]
    by_cases hp : pfrom = p
    · simp [hp]
    · simp [hp]
  constructor
  · -- pin counts stay the recomputed counts
    intro e p
    rw [mpc]
    unfold pinCountInPartRecomputed
    by_cases hel : e ∈ H.incidentEdges u
    · have hupin : u ∈ H.pins e := (hwf.mem_incident_iff u e).mp hel
      rw [if_pos hel]
      unfold movedRowCount
      by_cases hpf : p = pfrom
      · rw [hpf, if_pos rfl]
        have hflip := countP_flip (H.pins e) (hwf.pins_nodup e) u hupin
          (fun v => s.partIds v == some pfrom)
          (fun v => (changeNodePartCore H g u pfrom pto mw s).2.partIds v ==
            some pfrom)
          (by show (s.partIds u == some pfrom) = true
              rw [holdu pfrom]; simp)
          (by show ((changeNodePartCore H g u pfrom pto mw s).2.partIds u ==
                some pfrom) = false
              rw [hnewu pfrom]; simp; intro hc; exact hne hc.symm)
          (fun x _ hxu => (hpredeq pfrom x hxu).symm)
        have hc := ht.counts e pfrom
        unfold pinCountInPartRecomputed at hc
        omega
      · by_cases hpt : p = pto
        · rw [hpt, if_neg (fun hc => hne hc.symm), if_pos rfl]
          have hflip := countP_flip (H.pins e) (hwf.pins_nodup e) u hupin
            (fun v => (changeNodePartCore H g u pfrom pto mw s).2.partIds v ==
              some pto)
            (fun v => s.partIds v == some pto)
            (by show ((changeNodePartCore H g u pfrom pto mw s).2.partIds u ==
                  some pto) = true
                rw [hnewu pto]; simp)
            (by show (s.partIds u == some pto) = false
                rw [holdu pto]; simp; intro hc; exact hne hc)
            (fun x _ hxu => hpredeq pto x hxu)
          have hc := ht.counts e pto
          unfold pinCountInPartRecomputed at hc
          omega
        · rw [if_neg hpf, if_neg hpt]
          have hc := ht.counts e p
          unfold pinCountInPartRecomputed at hc
          rw [hc]
          refine countP_congr_mem (H.pins e) _ _ (fun x hx => ?_)
          by_cases hxu : x = u
          · rw [hxu, holdu p, hnewu p]
            simp [show pfrom ≠ p from fun hc2 => hpf hc2.symm,
              show pto ≠ p from fun hc2 => hpt hc2.symm]
          · exact (hpredeq p x hxu).symm
    · rw [if_neg hel]
      have hc := ht.counts e p
      unfold pinCountInPartRecomputed at hc
      rw [hc]
      refine countP_congr_mem (H.pins e) _ _ (fun x hx => ?_)
      have hxu : x ≠ u := by
        intro hc2
        rw [hc2] at hx
        exact hel ((hwf.mem_incident_iff u e).mpr hx)
      exact (hpredeq p x hxu).symm
  · -- connectivity set iff positive pin count
    intro e p
    rw [mpc, mcs]
    by_cases hel : e ∈ H.incidentEdges u
    · rw [if_pos hel, if_pos hel]
      unfold movedRowCount movedRowConn
      by_cases hpf : p = pfrom
      · rw [if_pos hpf, if_pos hpf]
        by_cases h0 : s.pinCounts e pfrom - 1 = 0
        · rw [if_pos h0, h0]
          simp
        · rw [if_neg h0]
          have hconn : s.connSet e pfrom = true := (ht.conn e pfrom).mpr (by omega)
          rw [hconn]
          constructor
          · intro _
            omega
          · intro _
            rfl
      · by_cases hpt : p = pto
        · rw [if_neg hpf, if_neg hpf, if_pos hpt, if_pos hpt]
          by_cases h1 : s.pinCounts e pto + 1 = 1
          · rw [if_pos h1]
            constructor
            · intro _
              omega
            · intro _
              rfl
          · rw [if_neg h1]
            have hconn : s.connSet e pto = true := (ht.conn e pto).mpr (by omega)
            rw [hconn]
            constructor
            · intro _
              omega
            · intro _
              rfl
        · rw [if_neg hpf, if_neg hpf, if_neg hpt, if_neg hpt]
          exact ht.conn e p
    · rw [if_neg hel, if_neg hel]
      exact ht.conn e p
  · -- block weights stay the recomputed sums
    intro p
    rw [mpw, ht.weights p, filter_map_sum_eq, filter_map_sum_eq]
    have hflip := ite_sum_flip H.nodeWeight (List.range H.numNodes)
      (List.nodup_range H.numNodes) u (List.mem_range.mpr hu)
      (fun v => s.partIds v == some p)
      (fun v => (changeNodePartCore H g u pfrom pto mw s).2.partIds v == some p)
      (fun x _ hxu => (hpredeq p x hxu).symm)
    simp only [hnewu p, holdu p, decide_eq_true_eq] at hflip
    have hq : (if pto = p then H.nodeWeight u else 0) =
        (if p = pto then H.nodeWeight u else 0) := by
      by_cases hp : p = pto
      · simp [hp]
      · simp [hp, Ne.symm hp]
    have hp2 : (if pfrom = p then H.nodeWeight u else 0) =
        (if p = pfrom then H.nodeWeight u else 0) := by
      by_cases hp : p = pfrom
      · simp [hp]
      · simp [hp, Ne.symm hp]
    rw [hq, hp2] at hflip
    exact hflip.symm
  · -- all nodes stay assigned to valid blocks
    intro v hv
    rw [mpi v]
    by_cases hvu : v = u
    · rw [if_pos hvu]
      exact ⟨pto, by rw [mk]; exact hto, rfl⟩
    · rw [if_neg hvu]
      obtain ⟨p, hp, hpe⟩ := ht.assigned v hv
      exact ⟨p, by rw [mk]; exact hp, hpe⟩

/-! ### Initialization lemmas (claim C3) -/

/-- The `setOnlyNodePart` fold assigns each processed node its block and
touches nothing else. -/
lemma foldl_setOnlyNodePart_spec (f : ℕ → ℕ) :
    ∀ (l : List ℕ) (s : PHG),
      (l.foldl (fun t v => setOnlyNodePart t v (f v)) s).k = s.k ∧
      (∀ x, (l.foldl (fun t v => setOnlyNodePart t v (f v)) s).partIds x =
        if x ∈ l then some (f x) else s.partIds x) ∧
      (l.foldl (fun t v => setOnlyNodePart t v (f v)) s).partWeights =
        s.partWeights ∧
      (l.foldl (fun t v => setOnlyNodePart t v (f v)) s).pinCounts =
        s.pinCounts ∧
      (l.foldl (fun t v => setOnlyNodePart t v (f v)) s).connSet = s.connSet ∧
      (l.foldl (fun t v => setOnlyNodePart t v (f v)) s).moveFromBenefit =
        s.moveFromBenefit ∧
      (l.foldl (fun t v => setOnlyNodePart t v (f v)) s).moveToPenalty =
        s.moveToPenalty := by
  intro l
  induction l with
  | nil =>
    intro s
    exact ⟨rfl, fun x => by simp, rfl, rfl, rfl, rfl, rfl⟩
  | cons a l ih =>
    intro s
    obtain ⟨hk, hpi, hpw, hpc, hcs, hmb, hmp⟩ := ih (setOnlyNodePart s a (f a))
    simp only [List.foldl_cons]
    refine ⟨hk, ?_, hpw, hpc, hcs, hmb, hmp⟩
    intro x
    rw [hpi x]
    by_cases hxl : x ∈ l
    · rw [if_pos hxl, if_pos (List.mem_cons.mpr (Or.inr hxl))]
    · rw [if_neg hxl]
      show (if x = a then some (f a) else s.partIds x) = _
      by_cases hxa : x = a
      · rw [if_pos hxa, if_pos (List.mem_cons.mpr (Or.inl hxa)), hxa]
      · rw [if_neg hxa,
          if_neg (fun hc => (List.mem_cons.mp hc).elim hxa hxl)]

/-- The pin-count increment loop of `setNodePart` over a duplicate-free edge
list: each listed edge's count in the target block rises by one, and the
block joins the connectivity set of exactly the listed edges whose count was
zero. -/
lemma foldl_incOnly_spec (p0 : ℕ) :
    ∀ (l : List ℕ), l.Nodup → ∀ (s : PHG),
      (l.foldl (fun t he =>
        (incrementPinCountInPartWithoutGainUpdate t he p0).1) s).k = s.k ∧
      (l.foldl (fun t he =>
        (incrementPinCountInPartWithoutGainUpdate t he p0).1) s).partIds =
        s.partIds ∧
      (l.foldl (fun t he =>
        (incrementPinCountInPartWithoutGainUpdate t he p0).1) s).partWeights =
        s.partWeights ∧
      (l.foldl (fun t he =>
        (incrementPinCountInPartWithoutGainUpdate t he p0).1) s).moveFromBenefit =
        s.moveFromBenefit ∧
      (l.foldl (fun t he =>
        (incrementPinCountInPartWithoutGainUpdate t he p0).1) s).moveToPenalty =
        s.moveToPenalty ∧
      (∀ e p, (l.foldl (fun t he =>
        (incrementPinCountInPartWithoutGainUpdate t he p0).1) s).pinCounts e p =
        if e ∈ l ∧ p = p0 then s.pinCounts e p + 1 else s.pinCounts e p) ∧
      (∀ e p, (l.foldl (fun t he =>
        (incrementPinCountInPartWithoutGainUpdate t he p0).1) s).connSet e p =
        if e ∈ l ∧ p = p0 ∧ s.pinCounts e p = 0 then true
        else s.connSet e p) := by
  intro l
  induction l with
  | nil =>
    intro _ s
    exact ⟨rfl, rfl, rfl, rfl, rfl, fun e p => by simp, fun e p => by simp⟩
  | cons a l ih =>
    intro hnd s
    obtain ⟨hal, hl⟩ := List.nodup_cons.mp hnd
    obtain ⟨_, sk, spi, spw, smb, smp, spc, scs⟩ := increment_spec s a p0
    obtain ⟨fk, fpi, fpw, fmb, fmp, fpc, fcs⟩ :=
      ih hl (incrementPinCountInPartWithoutGainUpdate s a p0).1
    simp only [List.foldl_cons]
    refine ⟨fk.trans sk, fpi.trans spi, fpw.trans spw, fmb.trans smb,
      fmp.trans smp, ?_, ?_⟩
    · intro e p
      rw [fpc e p, spc e p]
      by_cases hp : p = p0
      · by_cases hea : e = a
        · rw [hea, hp]
          simp [hal]
        · by_cases hel : e ∈ l
          · simp [hel, hea, hp]
          · simp [hel, hea, hp]
      · simp [hp]
    · intro e p
      rw [fcs e p, scs e p, spc e p]
      by_cases hp : p = p0
      · by_cases hea : e = a
        · rw [hea, hp]
          by_cases hz : s.pinCounts a p0 = 0
          · have h1 : s.pinCounts a p0 + 1 = 1 := by omega
            simp [hal, hz, h1]
          · have h1 : s.pinCounts a p0 + 1 ≠ 1 := by omega
            simp [hal, hz, h1]
        · by_cases hel : e ∈ l
          · simp [hel, hea, hp]
          · simp [hel, hea, hp]
      · simp [hp]

/-- Closed form of one `setNodePart(u, p0)` call over a hypergraph with
duplicate-free incident-edge lists. -/
lemma setNodePart_spec (H : Hypergraph) (hnd : ∀ v, (H.incidentEdges v).Nodup)
    (s : PHG) (u p0 : ℕ) :
    (setNodePart H s u p0).k = s.k ∧
    (∀ x, (setNodePart H s u p0).partIds x =
      if x = u then some p0 else s.partIds x) ∧
    (∀ q, (setNodePart H s u p0).partWeights q =
      if q = p0 then s.partWeights q + H.nodeWeight u else s.partWeights q) ∧
    (setNodePart H s u p0).moveFromBenefit = s.moveFromBenefit ∧
    (setNodePart H s u p0).moveToPenalty = s.moveToPenalty ∧
    (∀ e p, (setNodePart H s u p0).pinCounts e p =
      if e ∈ H.incidentEdges u ∧ p = p0 then s.pinCounts e p + 1
      else s.pinCounts e p) ∧
    (∀ e p, (setNodePart H s u p0).connSet e p =
      if e ∈ H.incidentEdges u ∧ p = p0 ∧ s.pinCounts e p = 0 then true
      else s.connSet e p) := by
  have hdef : setNodePart H s u p0 =
      (H.incidentEdges u).foldl
        (fun t he => (incrementPinCountInPartWithoutGainUpdate t he p0).1)
        { s with
          partIds := fun x => if x = u then some p0 else s.partIds x,
          partWeights := fun q =>
            if q = p0 then s.partWeights q + H.nodeWeight u
            else s.partWeights q } := rfl
  obtain ⟨fk, fpi, fpw, fmb, fmp, fpc, fcs⟩ :=
    foldl_incOnly_spec p0 (H.incidentEdges u) (hnd u)
      { s with
        partIds := fun x => if x = u then some p0 else s.partIds x,
        partWeights := fun q =>
          if q = p0 then s.partWeights q + H.nodeWeight u
          else s.partWeights q }
  rw [hdef]
  exact ⟨fk, fun x => by rw [fpi], fun q => by rw [fpw], fmb, fmp,
    fun e p => fpc e p, fun e p => fcs e p⟩

/-- Closed form of a `setNodePart` fold over a node list: part ids are
assigned, block weights accumulate the guarded node weights, pin counts
accumulate one unit per assigned pin, and a block enters a connectivity set
exactly when its count leaves zero. -/
lemma foldl_setNodePart_spec (H : Hypergraph)
    (hnd : ∀ v, (H.incidentEdges v).Nodup) (f : ℕ → ℕ) :
    ∀ (l : List ℕ) (s : PHG),
      (l.foldl (fun t v => setNodePart H t v (f v)) s).k = s.k ∧
      (∀ x, (l.foldl (fun t v => setNodePart H t v (f v)) s).partIds x =
        if x ∈ l then some (f x) else s.partIds x) ∧
      (∀ q, (l.foldl (fun t v => setNodePart H t v (f v)) s).partWeights q =
        s.partWeights q +
          (l.map (fun v => if f v = q then H.nodeWeight v else 0)).sum) ∧
      (l.foldl (fun t v => setNodePart H t v (f v)) s).moveFromBenefit =
        s.moveFromBenefit ∧
      (l.foldl (fun t v => setNodePart H t v (f v)) s).moveToPenalty =
        s.moveToPenalty ∧
      (∀ e p, (l.foldl (fun t v => setNodePart H t v (f v)) s).pinCounts e p =
        s.pinCounts e p +
          l.countP (fun v => decide (e ∈ H.incidentEdges v) && decide (f v = p))) ∧
      (∀ e p, (l.foldl (fun t v => setNodePart H t v (f v)) s).connSet e p =
        if s.pinCounts e p = 0 ∧
            1 ≤ l.countP
              (fun v => decide (e ∈ H.incidentEdges v) && decide (f v = p))
          then true else s.connSet e p) := by
  intro l
  induction l with
  | nil =>
    intro s
    exact ⟨rfl, fun x => by simp, fun q => by simp, rfl, rfl,
      fun e p => by simp, fun e p => by simp⟩
  | cons a l ih =>
    intro s
    obtain ⟨sk, spi, spw, smb, smp, spc, scs⟩ := setNodePart_spec H hnd s a (f a)
    obtain ⟨fk, fpi, fpw, fmb, fmp, fpc, fcs⟩ := ih (setNodePart H s a (f a))
    simp only [List.foldl_cons]
    refine ⟨fk.trans sk, ?_, ?_, fmb.trans smb, fmp.trans smp, ?_, ?_⟩
    · intro x
      rw [fpi x]
      by_cases hxl : x ∈ l
      · rw [if_pos hxl, if_pos (List.mem_cons.mpr (Or.inr hxl))]
      · rw [if_neg hxl, spi x]
        by_cases hxa : x = a
        · rw [if_pos hxa, if_pos (List.mem_cons.mpr (Or.inl hxa)), hxa]
        · rw [if_neg hxa,
            if_neg (fun hc => (List.mem_cons.mp hc).elim hxa hxl)]
    · intro q
      rw [fpw q, spw q]
      simp only [List.map_cons, List.sum_cons]
      by_cases hq : q = f a
      · rw [if_pos hq, if_pos hq.symm]
        ring
      · rw [if_neg hq, if_neg (fun hc => hq hc.symm)]
        ring
    · intro e p
      rw [fpc e p, spc e p]
      by_cases hPa : e ∈ H.incidentEdges a ∧ p = f a
      · have hb : (decide (e ∈ H.incidentEdges a) && decide (f a = p)) = true := by
          simp [hPa.1, hPa.2]
        have hcnt : (a :: l).countP
            (fun v => decide (e ∈ H.incidentEdges v) && decide (f v = p)) =
            l.countP
              (fun v => decide (e ∈ H.incidentEdges v) && decide (f v = p)) + 1 := by
          rw [List.countP_cons, hb]
          simp
        rw [if_pos hPa, hcnt]
        omega
      · have hb : (decide (e ∈ H.incidentEdges a) && decide (f a = p)) = false := by
          by_cases h1 : e ∈ H.incidentEdges a
          · have h2 : f a ≠ p := fun hc2 => hPa ⟨h1, hc2.symm⟩
            simp [h1, h2]
          · simp [h1]
        have hcnt : (a :: l).countP
            (fun v => decide (e ∈ H.incidentEdges v) && decide (f v = p)) =
            l.countP
              (fun v => decide (e ∈ H.incidentEdges v) && decide (f v = p)) := by
          rw [List.countP_cons, hb]
          simp
        rw [if_neg hPa, hcnt]
    · intro e p
      rw [fcs e p, scs e p, spc e p]
      by_cases hPa : e ∈ H.incidentEdges a ∧ p = f a
      · have hb : (decide (e ∈ H.incidentEdges a) && decide (f a = p)) = true := by
          simp [hPa.1, hPa.2]
        have hcnt : (a :: l).countP
            (fun v => decide (e ∈ H.incidentEdges v) && decide (f v = p)) =
            l.countP
              (fun v => decide (e ∈ H.incidentEdges v) && decide (f v = p)) + 1 := by
          rw [List.countP_cons, hb]
          simp
        rw [hcnt, if_pos hPa]
        have h1 : ¬(s.pinCounts e p + 1 = 0 ∧ 1 ≤ l.countP
            (fun v => decide (e ∈ H.incidentEdges v) && decide (f v = p))) :=
          fun hc => Nat.succ_ne_zero _ hc.1
        rw [if_neg h1]
        by_cases hz : s.pinCounts e p = 0
        · rw [if_pos ⟨hPa.1, hPa.2, hz⟩, if_pos ⟨hz, by omega⟩]
        · rw [if_neg (fun hc => hz hc.2.2), if_neg (fun hc => hz hc.1)]
      · have hb : (decide (e ∈ H.incidentEdges a) && decide (f a = p)) = false := by
          by_cases h1 : e ∈ H.incidentEdges a
          · have h2 : f a ≠ p := fun hc2 => hPa ⟨h1, hc2.symm⟩
            simp [h1, h2]
          · simp [h1]
        have hcnt : (a :: l).countP
            (fun v => decide (e ∈ H.incidentEdges v) && decide (f v = p)) =
            l.countP
              (fun v => decide (e ∈ H.incidentEdges v) && decide (f v = p)) := by
          rw [List.countP_cons, hb]
          simp
        rw [hcnt, if_neg hPa]
        have hmid : ¬(e ∈ H.incidentEdges a ∧ p = f a ∧ s.pinCounts e p = 0) :=
          fun hc => hPa ⟨hc.1, hc.2.1⟩
        rw [if_neg hmid]

/-- A count over a duplicate-free list equals a filtered-finset cardinality. -/
lemma countP_toFinsetCard (p : ℕ → Bool) (l : List ℕ) (hnd : l.Nodup) :
    l.countP p = (l.toFinset.filter (fun x => p x)).card := by
  rw [List.countP_eq_length_filter, ← List.toFinset_card_of_nodup (hnd.filter p),
    List.toFinset_filter]

/-- Double counting: restricting a count over `range n` to membership in a
duplicate-free sublist counts over the sublist. -/
lemma countP_double (n : ℕ) (l2 : List ℕ) (hnd2 : l2.Nodup)
    (hsub : ∀ v ∈ l2, v < n) (P : ℕ → Bool) :
    (List.range n).countP (fun v => decide (v ∈ l2) && P v) = l2.countP P := by
  rw [countP_toFinsetCard _ _ (List.nodup_range n), countP_toFinsetCard _ _ hnd2]
  congr 1
  ext v
  simp only [Finset.mem_filter, List.mem_toFinset, List.mem_range,
    Bool.and_eq_true, decide_eq_true_eq]
  constructor
  · rintro ⟨_, hv2, hP⟩
    exact ⟨hv2, hP⟩
  · rintro ⟨hv2, hP⟩
    exact ⟨hsub v hv2, hv2, hP⟩

/-- A sum of ones over a list is its length. -/
lemma sum_map_one (l : List ℕ) (f : ℕ → ℕ) (hf : ∀ x ∈ l, f x = 1) :
    (l.map f).sum = l.length := by
  induction l with
  | nil => rfl
  | cons a l ih =>
    simp only [List.map_cons, List.sum_cons, List.length_cons]
    rw [hf a (by simp), ih (fun x hx => hf x (by simp [hx]))]
    omega

/-- A sum of indicator values is a count. -/
lemma sum_ite_eq_countP (P : ℕ → Bool) :
    ∀ l : List ℕ, (l.map (fun p => if P p then (1 : ℕ) else 0)).sum = l.countP P := by
  intro l
  induction l with
  | nil => rfl
  | cons a l ih =>
    simp only [List.map_cons, List.sum_cons, List.countP_cons, ih]
    omega

/-- Pointwise addition of two mapped natural sums. -/
lemma list_sum_map_add_split (f g : ℕ → ℕ) :
    ∀ l : List ℕ, (l.map (fun x => f x + g x)).sum = (l.map f).sum + (l.map g).sum := by
  intro l
  induction l with
  | nil => rfl
  | cons a l ih =>
    simp only [List.map_cons, List.sum_cons, ih]
    omega

/-- Exchanging a double count: summing per-block counts of a list equals
summing per-element counts of the blocks. -/
lemma range_sum_countP (gp : ℕ → ℕ → Bool) (ks : List ℕ) :
    ∀ l : List ℕ, (ks.map (fun p => l.countP (gp p))).sum =
      (l.map (fun x => ks.countP (fun p => gp p x))).sum := by
  intro l
  induction l with
  | nil => simp
  | cons x l ih =>
    simp only [List.countP_cons, List.map_cons, List.sum_cons]
    rw [list_sum_map_add_split (fun p => l.countP (gp p))
      (fun p => if gp p x then 1 else 0) ks, ih, sum_ite_eq_countP]
    omega

/-- A block id below `k` is hit exactly once when scanning `range k`. -/
lemma countP_range_part (k q : ℕ) (hq : q < k) :
    (List.range k).countP (fun p => some q == some p) = 1 := by
  have h1 : (List.range k).countP (fun p => some q == some p) =
      (List.range k).countP (fun p => p == q) := by
    refine countP_congr_mem _ _ _ (fun p _ => ?_)
    show (some q == some p) = (p == q)
    by_cases h : p = q
    · simp [h]
    · simp [h, Ne.symm h]
  rw [h1]
  show List.count q (List.range k) = 1
  exact List.count_eq_one_of_mem (List.nodup_range k) (List.mem_range.mpr hq)

/-- Initialization through `setNodePart` establishes the tracked
invariants. -/
lemma tracked_init_seq (H : Hypergraph) (hwf : H.Wellformed) (k : ℕ)
    (f : ℕ → ℕ) (hf : ∀ v < H.numNodes, f v < k) :
    Tracked H ((List.range H.numNodes).foldl
      (fun t v => setNodePart H t v (f v)) (PHG.init k)) := by
  obtain ⟨fk, fpi, fpw, fmb, fmp, fpc, fcs⟩ :=
    foldl_setNodePart_spec H hwf.incident_nodup f (List.range H.numNodes)
      (PHG.init k)
  have hcnt : ∀ e p, (List.range H.numNodes).countP
      (fun v => decide (e ∈ H.incidentEdges v) && decide (f v = p)) =
      (H.pins e).countP (fun v => decide (f v = p)) := by
    intro e p
    have hstep1 : (List.range H.numNodes).countP
        (fun v => decide (e ∈ H.incidentEdges v) && decide (f v = p)) =
        (List.range H.numNodes).countP
          (fun v => decide (v ∈ H.pins e) && decide (f v = p)) := by
      refine countP_congr_mem _ _ _ (fun v _ => ?_)
      by_cases h : e ∈ H.incidentEdges v
      · have h2 : v ∈ H.pins e := (hwf.mem_incident_iff v e).mp h
        simp [h, h2]
      · have h2 : v ∉ H.pins e := fun hc => h ((hwf.mem_incident_iff v e).mpr hc)
        simp [h, h2]
    rw [hstep1]
    exact countP_double H.numNodes (H.pins e) (hwf.pins_nodup e)
      (hwf.pins_lt e) (fun v => decide (f v = p))
  constructor
  · intro e p
    have hfp := fpc e p
    rw [show (PHG.init k).pinCounts e p = 0 from rfl, Nat.zero_add, hcnt e p]
      at hfp
    rw [hfp]
    unfold pinCountInPartRecomputed
    refine countP_congr_mem _ _ _ (fun x hx => ?_)
    have hxn : x < H.numNodes := hwf.pins_lt e x hx
    rw [fpi x, if_pos (List.mem_range.mpr hxn)]
    by_cases h : f x = p
    · simp [h]
    · simp [h]
  · intro e p
    have hfc := fcs e p
    have hfp := fpc e p
    rw [show (PHG.init k).pinCounts e p = 0 from rfl] at hfc hfp
    rw [show (PHG.init k).connSet e p = false from rfl] at hfc
    rw [Nat.zero_add] at hfp
    rw [hfc, hfp]
    by_cases h1 : 1 ≤ (List.range H.numNodes).countP
        (fun v => decide (e ∈ H.incidentEdges v) && decide (f v = p))
    · rw [if_pos ⟨rfl, h1⟩]
      simp [h1]
    · rw [if_neg (fun hc => h1 hc.2)]
      constructor
      · intro hc
        exact absurd hc Bool.false_ne_true
      · intro hc
        exact absurd hc h1
  · intro p
    have hfw := fpw p
    rw [show (PHG.init k).partWeights p = (0 : ℤ) from rfl, zero_add] at hfw
    rw [hfw, filter_map_sum_eq]
    refine congrArg List.sum (List.map_congr_left (fun v hv => ?_))
    rw [fpi v, if_pos hv]
    by_cases h : f v = p
    · simp [h]
    · simp [h]
  · intro v hv
    refine ⟨f v, ?_, ?_⟩
    · rw [fk]
      exact hf v hv
    · rw [fpi v, if_pos (List.mem_range.mpr hv)]

/-- Initialization through `setOnlyNodePart` followed by
`initializePartition` establishes the tracked invariants. -/
lemma tracked_init_bulk (H : Hypergraph) (hwf : H.Wellformed) (k : ℕ)
    (f : ℕ → ℕ) (hf : ∀ v < H.numNodes, f v < k) :
    Tracked H (initializePartition H
      ((List.range H.numNodes).foldl
        (fun t v => setOnlyNodePart t v (f v)) (PHG.init k))) := by
  obtain ⟨hk, hpi, hpw, hpc, hcs, hmb, hmp⟩ :=
    foldl_setOnlyNodePart_spec f (List.range H.numNodes) (PHG.init k)
  constructor
  · intro e p
    rfl
  · intro e p
    simp only [initializePartition, initializePinCountInPart, decide_eq_true_eq]
    omega
  · intro p
    rfl
  · intro v hv
    refine ⟨f v, ?_, ?_⟩
    · show f v < ((List.range H.numNodes).foldl
        (fun t v => setOnlyNodePart t v (f v)) (PHG.init k)).k
      rw [hk]
      exact hf v hv
    · show ((List.range H.numNodes).foldl
        (fun t v => setOnlyNodePart t v (f v)) (PHG.init k)).partIds v = some (f v)
      rw [hpi v, if_pos (List.mem_range.mpr hv)]

/-- Every reachable state satisfies the tracked invariants. -/
lemma tracked_of_reachable (H : Hypergraph) (hwf : H.Wellformed) (s : PHG)
    (hr : Reachable H s) : Tracked H s := by
  induction hr with
  | viaSetNodePart k f hf => exact tracked_init_seq H hwf k f hf
  | viaInitializePartition k f hf => exact tracked_init_bulk H hwf k f hf
  | move s g u pfrom pto mw hs hu hpart hne hto hsucc ih =>
    exact tracked_move H hwf g s u pfrom pto mw ih hu hpart hne hto hsucc

/-- `Hex1` satisfies the hypergraph interface contract. -/
lemma Hex1_wf : Hex1.Wellformed := by
  constructor
  · intro e
    by_cases h : e = 0 <;> simp [Hex1, h]
  · intro v
    by_cases h : v < 2 <;> simp [Hex1, h]
  · intro v e
    by_cases hv : v < 2 <;> by_cases he : e = 0 <;> simp [Hex1, hv, he] <;> omega
  · intro e v hv
    by_cases h : e = 0
    · simp [Hex1, h] at hv
      show v < Hex1.numNodes
      simp only [Hex1]
      omega
    · simp [Hex1, h] at hv
  · intro v e he
    by_cases h : v < 2
    · simp [Hex1, h] at he
      show e < Hex1.numEdges
      simp only [Hex1]
      omega
    · simp [Hex1, h] at he

/-- C3: in every reachable partition state the pin counts of each edge over
the blocks sum to the edge size, a block is in the connectivity set of an
edge iff its pin count is at least one, and each block weight is the sum of
the weights of its assigned vertices. -/
theorem C3_invariants (H : Hypergraph) (hwf : H.Wellformed) (s : PHG)
    (hr : Reachable H s) :
    (∀ e, ((List.range s.k).map (fun p => s.pinCounts e p)).sum = H.edgeSize e) ∧
    (∀ e p, s.connSet e p = true ↔ 1 ≤ s.pinCounts e p) ∧
    (∀ p, s.partWeights p =
      (((List.range H.numNodes).filter (fun u => s.partIds u == some p)).map
        H.nodeWeight).sum) := by
  have ht := tracked_of_reachable H hwf s hr
  refine ⟨?_, ht.conn, ht.weights⟩
  intro e
  have h1 : ((List.range s.k).map (fun p => s.pinCounts e p)).sum =
      ((List.range s.k).map (fun p =>
        (H.pins e).countP (fun x => s.partIds x == some p))).sum :=
    congrArg List.sum (List.map_congr_left (fun p _ => ht.counts e p))
  rw [h1, range_sum_countP]
  have h2 : ∀ x ∈ H.pins e,
      (List.range s.k).countP (fun p => s.partIds x == some p) = 1 := by
    intro x hx
    obtain ⟨q, hqk, hqe⟩ := ht.assigned x (hwf.pins_lt e x hx)
    have hfun : (fun p => s.partIds x == some p) =
        (fun p => some q == some p) := by
      funext p
      rw [hqe]
    rw [hfun]
    exact countP_range_part s.k q hqk
  rw [sum_map_one (H.pins e) _ h2]
  rfl

/-- Witness for C3 on the scenario-1 instance. -/
theorem C3_invariants_witness :
    (((List.range s1.k).map (fun p => s1.pinCounts 0 p)).sum = Hex1.edgeSize 0) ∧
      (s1.connSet 0 0 = true ↔ 1 ≤ s1.pinCounts 0 0) ∧
      s1.partWeights 0 =
        (((List.range Hex1.numNodes).filter
          (fun u => s1.partIds u == some 0)).map Hex1.nodeWeight).sum := by
  obtain ⟨h1, h2, h3⟩ := C3_invariants Hex1 Hex1_wf s1
    (Reachable.viaSetNodePart 2 (fun v => v) (fun v hv => hv))
  exact ⟨h1 0, h2 0 0, h3 0⟩

/-! ### km1 gain correctness (claim C4) -/

/-- A cast count is a sum of integer indicators. -/
lemma indicator_cast_countP (P : ℕ → Bool) :
    ∀ l : List ℕ,
      ((l.countP P : ℕ) : ℤ) = (l.map (fun x => if P x then (1 : ℤ) else 0)).sum := by
  intro l
  induction l with
  | nil => rfl
  | cons a l ih =>
    simp only [List.countP_cons, List.map_cons, List.sum_cons]
    by_cases h : P a = true
    · rw [if_pos h, if_pos h]
      push_cast
      rw [ih]
      ring
    · rw [if_neg h, if_neg h]
      push_cast
      rw [ih]
      ring

/-- Changing a predicate at two points of a duplicate-free list changes the
count by the two indicator flips. -/
lemma countP_two_point (l : List ℕ) (hnd : l.Nodup) (P Q : ℕ → Bool)
    (a b : ℕ) (hab : a ≠ b) (ha : a ∈ l) (hb : b ∈ l)
    (hPQ : ∀ x ∈ l, x ≠ a → x ≠ b → P x = Q x) :
    ((l.countP Q : ℕ) : ℤ) = ((l.countP P : ℕ) : ℤ)
      + ((if Q a then (1 : ℤ) else 0) - (if P a then (1 : ℤ) else 0))
      + ((if Q b then (1 : ℤ) else 0) - (if P b then (1 : ℤ) else 0)) := by
  have hR := ite_sum_flip (fun _ => (1 : ℤ)) l hnd b hb
    (fun x => if x = b then P x else Q x) Q
    (fun x _ hxb => by
      show (if x = b then P x else Q x) = Q x
      rw [if_neg hxb])
  have hP2 := ite_sum_flip (fun _ => (1 : ℤ)) l hnd a ha
    P (fun x => if x = b then P x else Q x)
    (fun x hx hxa => by
      show P x = (if x = b then P x else Q x)
      by_cases hxb : x = b
      · rw [if_pos hxb]
      · rw [if_neg hxb]
        exact hPQ x hx hxa hxb)
  dsimp only [] at hR hP2
  rw [indicator_cast_countP Q, indicator_cast_countP P, hR, hP2,
    show (if b = b then P b else Q b) = P b from if_pos rfl,
    show (if a = b then P a else Q a) = Q a from if_neg hab]
  ring

/-- A sum over a duplicate-free list restricts to a duplicate-free sublist
outside of which the summand vanishes. -/
lemma sum_support_sublist (d : ℕ → ℤ) :
    ∀ (l m : List ℕ), l.Nodup → m.Nodup → (∀ x ∈ m, x ∈ l) →
      (∀ x ∈ l, x ∉ m → d x = 0) → (l.map d).sum = (m.map d).sum := by
  intro l
  induction l with
  | nil =>
    intro m _ _ hsub _
    have hm : m = [] := List.eq_nil_iff_forall_not_mem.mpr
      (fun x hx => (List.not_mem_nil x) (hsub x hx))
    rw [hm]
  | cons a l ih =>
    intro m hnd hndm hsub hz
    obtain ⟨hal, hl⟩ := List.nodup_cons.mp hnd
    simp only [List.map_cons, List.sum_cons]
    by_cases ham : a ∈ m
    · have hperm : m.Perm (a :: m.erase a) := List.perm_cons_erase ham
      have hsum : (m.map d).sum = ((a :: m.erase a).map d).sum :=
        (hperm.map d).sum_eq
      rw [hsum]
      simp only [List.map_cons, List.sum_cons]
      have hih : (l.map d).sum = ((m.erase a).map d).sum := by
        refine ih (m.erase a) hl (hndm.erase a) ?_ ?_
        · intro x hx
          obtain ⟨hxa, hxm⟩ := hndm.mem_erase_iff.mp hx
          rcases List.mem_cons.mp (hsub x hxm) with h | h
          · exact absurd h hxa
          · exact h
        · intro x hx hxe
          have hxa : x ≠ a := fun hc => hal (hc ▸ hx)
          have hxm : x ∉ m := fun hc => hxe (hndm.mem_erase_iff.mpr ⟨hxa, hc⟩)
          exact hz x (List.mem_cons.mpr (Or.inr hx)) hxm
      rw [hih]
    · have hda : d a = 0 := hz a (List.mem_cons.mpr (Or.inl rfl)) ham
      rw [hda]
      have hih : (l.map d).sum = (m.map d).sum := by
        refine ih m hl hndm ?_ ?_
        · intro x hx
          rcases List.mem_cons.mp (hsub x hx) with h | h
          · exact absurd (h ▸ hx) ham
          · exact h
        · intro x hx hxm
          exact hz x (List.mem_cons.mpr (Or.inr hx)) hxm
      rw [hih]
      ring

/-- The connectivity of an edge after one pin moves from `pfrom` to `pto`,
expressed over the pre-move counts: `pto` enters the connectivity set iff its
count was zero and `pfrom` leaves it iff its count was one. -/
lemma connectivity_moved_delta (s : PHG) (e pfrom pto : ℕ)
    (hne : pfrom ≠ pto) (hpfk : pfrom < s.k) (htok : pto < s.k)
    (hconn : ∀ p, s.connSet e p = true ↔ 1 ≤ s.pinCounts e p)
    (hcf : 1 ≤ s.pinCounts e pfrom) :
    ((((List.range s.k).filter
        (fun p => movedRowConn pfrom pto (s.pinCounts e) (s.connSet e) p)).length
      : ℕ) : ℤ) =
      ((connectivity s e : ℕ) : ℤ)
        + (if s.pinCounts e pto = 0 then (1 : ℤ) else 0)
        - (if s.pinCounts e pfrom = 1 then (1 : ℤ) else 0) := by
  unfold connectivity
  rw [← List.countP_eq_length_filter, ← List.countP_eq_length_filter]
  rw [countP_two_point (List.range s.k) (List.nodup_range s.k)
    (fun p => s.connSet e p)
    (fun p => movedRowConn pfrom pto (s.pinCounts e) (s.connSet e) p)
    pfrom pto hne (List.mem_range.mpr hpfk) (List.mem_range.mpr htok)
    (fun p _ hpf hpt => by
      show s.connSet e p = movedRowConn pfrom pto (s.pinCounts e) (s.connSet e) p
      unfold movedRowConn
      rw [if_neg hpf, if_neg hpt])]
  have hQf : movedRowConn pfrom pto (s.pinCounts e) (s.connSet e) pfrom =
      (if s.pinCounts e pfrom - 1 = 0 then false else s.connSet e pfrom) := by
    unfold movedRowConn
    rw [if_pos rfl]
  have hQt : movedRowConn pfrom pto (s.pinCounts e) (s.connSet e) pto =
      (if s.pinCounts e pto + 1 = 1 then true else s.connSet e pto) := by
    unfold movedRowConn
    rw [if_neg (Ne.symm hne), if_pos rfl]
  have hPf : s.connSet e pfrom = true := (hconn pfrom).mpr hcf
  rw [hQf, hQt]
  by_cases hf1 : s.pinCounts e pfrom = 1
  · have h1 : s.pinCounts e pfrom - 1 = 0 := by omega
    by_cases ht0 : s.pinCounts e pto = 0
    · have h2 : s.pinCounts e pto + 1 = 1 := by omega
      have hPt : s.connSet e pto = false := by
        cases hcase : s.connSet e pto
        · rfl
        · have := (hconn pto).mp hcase
          omega
      simp only [h1, h2, hf1, ht0, hPf, hPt, if_true, if_pos, if_neg]
      simp
    · have h2 : s.pinCounts e pto + 1 ≠ 1 := by omega
      have hPt : s.connSet e pto = true := (hconn pto).mpr (by omega)
      simp only [hPf, hPt]
      rw [if_pos h1, if_neg h2, if_pos hf1, if_neg ht0]
      simp
      omega
  · have h1 : s.pinCounts e pfrom - 1 ≠ 0 := by omega
    by_cases ht0 : s.pinCounts e pto = 0
    · have h2 : s.pinCounts e pto + 1 = 1 := by omega
      have hPt : s.connSet e pto = false := by
        cases hcase : s.connSet e pto
        · rfl
        · have := (hconn pto).mp hcase
          omega
      rw [if_neg h1, if_pos h2, if_neg hf1, if_pos ht0]
      simp [hPf, hPt]
    · have h2 : s.pinCounts e pto + 1 ≠ 1 := by omega
      have hPt : s.connSet e pto = true := (hconn pto).mpr (by omega)
      rw [if_neg h1, if_neg h2, if_neg hf1, if_neg ht0]
      simp [hPf, hPt]

/-- States with equal partition fields satisfy the same tracked
invariants. -/
lemma tracked_of_baseEq (H : Hypergraph) (a b : PHG) (hbe : PHG.BaseEq a b)
    (ht : Tracked H a) : Tracked H b := by
  obtain ⟨hk, hpi, hpw, hpc, hcs⟩ := hbe
  constructor
  · intro e p
    rw [hpc, ht.counts e p]
    unfold pinCountInPartRecomputed
    rw [hpi]
  · intro e p
    rw [hcs, hpc]
    exact ht.conn e p
  · intro p
    rw [hpw, hpi]
    exact ht.weights p
  · intro v hv
    obtain ⟨p, hp, hpe⟩ := ht.assigned v hv
    exact ⟨p, by rw [hk]; exact hp, by rw [hpi]; exact hpe⟩

/-- `Hex2` satisfies the hypergraph interface contract. -/
lemma Hex2_wf : Hex2.Wellformed := by
  constructor
  · intro e
    by_cases h : e = 0 <;> simp [Hex2, h]
  · intro v
    by_cases h : v < 2 <;> simp [Hex2, h]
  · intro v e
    by_cases hv : v < 2 <;> by_cases he : e = 0 <;> simp [Hex2, hv, he] <;> omega
  · intro e v hv
    by_cases h : e = 0
    · simp [Hex2, h] at hv
      show v < Hex2.numNodes
      simp only [Hex2]
      omega
    · simp [Hex2, h] at hv
  · intro v e he
    by_cases h : v < 2
    · simp [Hex2, h] at he
      show e < Hex2.numEdges
      simp only [Hex2]
      omega
    · simp [Hex2, h] at he

/-- C4: for a move that succeeds in isolation from a state whose tracked
invariants hold and whose gain-cache entries for the moved vertex equal
their recomputed values, the km1 objective changes by exactly the negated
`km1Gain`. -/
theorem C4_km1_gain (H : Hypergraph) (hwf : H.Wellformed) (g : Bool)
    (s : PHG) (u pfrom pto : ℕ) (mw : ℤ)
    (ht : Tracked H s) (hu : u < H.numNodes)
    (hpart : s.partIds u = some pfrom) (hne : pfrom ≠ pto) (hto : pto < s.k)
    (hB : s.moveFromBenefit u = moveFromBenefitRecomputed H s u)
    (hP : s.moveToPenalty u pto = moveToPenaltyRecomputed H s u pto)
    (hsucc : (changeNodePartCore H g u pfrom pto mw s).1 = true) :
    km1 H (changeNodePartCore H g u pfrom pto mw s).2 =
      km1 H s - km1Gain s u pfrom pto := by
  obtain ⟨mk, mpi, mpw, mpc, mcs, _, _⟩ :=
    moveSuccess_spec H g u pfrom pto mw s hne (hwf.incident_nodup u)
      (fun e _ => hwf.pins_nodup e) hsucc
  have hpfk : pfrom < s.k := by
    obtain ⟨pf0, hpf0k, hpf0⟩ := ht.assigned u hu
    have h := Option.some.inj (hpart.symm.trans hpf0)
    rw [h]
    exact hpf0k
  -- the per-edge connectivity difference
  have hDzero : ∀ e ∈ List.range H.numEdges, e ∉ H.incidentEdges u →
      H.edgeWeight e *
        (((connectivity (changeNodePartCore H g u pfrom pto mw s).2 e : ℕ) : ℤ) -
          ((connectivity s e : ℕ) : ℤ)) = 0 := by
    intro e _ hel
    have hconnEq : connectivity (changeNodePartCore H g u pfrom pto mw s).2 e =
        connectivity s e := by
      unfold connectivity
      rw [mk]
      exact congrArg List.length
        (List.filter_congr (fun p _ => by rw [mcs e p, if_neg hel]))
    rw [hconnEq]
    ring
  have hDinc : ∀ e ∈ H.incidentEdges u,
      H.edgeWeight e *
        (((connectivity (changeNodePartCore H g u pfrom pto mw s).2 e : ℕ) : ℤ) -
          ((connectivity s e : ℕ) : ℤ)) =
        (if s.pinCounts e pto = 0 then H.edgeWeight e else 0) -
          (if s.pinCounts e pfrom = 1 then H.edgeWeight e else 0) := by
    intro e hel
    have hupin : u ∈ H.pins e := (hwf.mem_incident_iff u e).mp hel
    have hcf : 1 ≤ s.pinCounts e pfrom := by
      rw [ht.counts e pfrom]
      unfold pinCountInPartRecomputed
      refine List.countP_pos_iff.mpr ⟨u, hupin, ?_⟩
      rw [hpart]
      simp
    have hconnEq : connectivity (changeNodePartCore H g u pfrom pto mw s).2 e =
        ((List.range s.k).filter
          (fun p => movedRowConn pfrom pto (s.pinCounts e) (s.connSet e) p)).length := by
      unfold connectivity
      rw [mk]
      exact congrArg List.length
        (List.filter_congr (fun p _ => by rw [mcs e p, if_pos hel]))
    rw [hconnEq,
      connectivity_moved_delta s e pfrom pto hne hpfk hto (ht.conn e) hcf]
    by_cases h1 : s.pinCounts e pto = 0 <;>
      by_cases h2 : s.pinCounts e pfrom = 1 <;>
        simp only [h1, h2, if_true, if_pos, if_neg] <;> simp <;> ring
  -- the gain-cache entries as guarded sums
  have hpid : partIdOf s u = pfrom := by
    unfold partIdOf
    rw [hpart]
    rfl
  have hBsum : moveFromBenefitRecomputed H s u =
      ((H.incidentEdges u).map
        (fun e => if s.pinCounts e pfrom = 1 then H.edgeWeight e else 0)).sum := by
    unfold moveFromBenefitRecomputed
    rw [hpid, foldl_condSum H.edgeWeight
      (fun e => s.pinCounts e pfrom = 1) (H.incidentEdges u) 0]
    rw [zero_add]
  have hPsum : moveToPenaltyRecomputed H s u pto =
      ((H.incidentEdges u).map
        (fun e => if s.pinCounts e pto = 0 then H.edgeWeight e else 0)).sum := by
    unfold moveToPenaltyRecomputed
    rw [foldl_condSum H.edgeWeight
      (fun e => s.pinCounts e pto = 0) (H.incidentEdges u) 0]
    rw [zero_add]
  -- assemble the sums
  have h1 : ((List.range H.numEdges).map
      (fun e => H.edgeWeight e *
        (((connectivity (changeNodePartCore H g u pfrom pto mw s).2 e : ℕ) : ℤ) - 1))).sum -
      ((List.range H.numEdges).map
        (fun e => H.edgeWeight e * (((connectivity s e : ℕ) : ℤ) - 1))).sum =
      ((List.range H.numEdges).map
        (fun e => H.edgeWeight e *
          (((connectivity (changeNodePartCore H g u pfrom pto mw s).2 e : ℕ) : ℤ) -
            ((connectivity s e : ℕ) : ℤ)))).sum := by
    rw [list_sum_map_sub]
    exact congrArg List.sum (List.map_congr_left (fun e _ => by ring))
  have h2 : ((List.range H.numEdges).map
      (fun e => H.edgeWeight e *
        (((connectivity (changeNodePartCore H g u pfrom pto mw s).2 e : ℕ) : ℤ) -
          ((connectivity s e : ℕ) : ℤ)))).sum =
      ((H.incidentEdges u).map
        (fun e => H.edgeWeight e *
          (((connectivity (changeNodePartCore H g u pfrom pto mw s).2 e : ℕ) : ℤ) -
            ((connectivity s e : ℕ) : ℤ)))).sum :=
    sum_support_sublist _ (List.range H.numEdges) (H.incidentEdges u)
      (List.nodup_range H.numEdges) (hwf.incident_nodup u)
      (fun e he => List.mem_range.mpr (hwf.incident_lt u e he)) hDzero
  have h3 : ((H.incidentEdges u).map
      (fun e => H.edgeWeight e *
        (((connectivity (changeNodePartCore H g u pfrom pto mw s).2 e : ℕ) : ℤ) -
          ((connectivity s e : ℕ) : ℤ)))).sum =
      ((H.incidentEdges u).map
        (fun e => if s.pinCounts e pto = 0 then H.edgeWeight e else 0)).sum -
      ((H.incidentEdges u).map
        (fun e => if s.pinCounts e pfrom = 1 then H.edgeWeight e else 0)).sum := by
    rw [list_sum_map_sub]
    exact congrArg List.sum (List.map_congr_left hDinc)
  unfold km1 km1Gain
  rw [hB, hP, hBsum, hPsum]
  linarith [h1, h2, h3]

/-- Witness for C4: moving vertex 0 of `Hex2` from block 0 to block 1 in the
gain-initialized state lowers km1 by the negated gain. -/
theorem C4_km1_gain_witness :
    km1 Hex2 (changeNodePartCore Hex2 true 0 0 1 10 s2rt).2 =
      km1 Hex2 s2rt - km1Gain s2rt 0 0 1 :=
  C4_km1_gain Hex2 Hex2_wf true s2rt 0 0 1 10
    (tracked_of_baseEq Hex2
      (initializePartition Hex2
        ((List.range Hex2.numNodes).foldl
          (fun t v => setOnlyNodePart t v (if v = 2 then 1 else 0)) (PHG.init 2)))
      s2rt ⟨rfl, rfl, rfl, rfl, rfl⟩
      (tracked_init_bulk Hex2 Hex2_wf 2 (fun v => if v = 2 then 1 else 0)
        (fun v _ => by by_cases h : v = 2 <;> simp [h])))
    (by decide) (by decide) (by decide) (by decide)
    (by decide) (by decide) (by decide)

/-! ### Round-trip lemmas (claim C6) -/

/-- If a predicate holds exactly once on a list, `find?` locates any element
satisfying it. -/
lemma find?_unique_of_countP_one (l : List ℕ) (P : ℕ → Bool)
    (h1 : l.countP P = 1) :
    ∀ x ∈ l, P x = true → l.find? P = some x := by
  induction l with
  | nil =>
    intro x hx
    cases hx
  | cons c l ih =>
    intro x hx hPx
    rw [List.countP_cons] at h1
    by_cases hc : P c = true
    · rw [List.find?_cons_of_pos l hc]
      rw [if_pos hc] at h1
      have h0 : l.countP P = 0 := by omega
      rcases List.mem_cons.mp hx with h | h
      · rw [h]
      · exact absurd hPx (List.countP_eq_zero.mp h0 x h)
    · rw [List.find?_cons_of_neg l hc]
      rw [if_neg hc] at h1
      rcases List.mem_cons.mp hx with h | h
      · rw [h] at hPx
        exact absurd hPx hc
      · exact ih (by omega) x h hPx

/-- Two guarded values with equivalent guards and opposite payloads cancel. -/
lemma ite_pair_opp (C D : Prop) [Decidable C] [Decidable D] (hCD : C ↔ D)
    (w w2 : ℤ) (hw : w2 = -w) :
    (if C then w else 0) + (if D then w2 else 0) = 0 := by
  by_cases h : C
  · rw [if_pos h, if_pos (hCD.mp h), hw]
    ring
  · rw [if_neg h, if_neg (fun hd => h (hCD.mpr hd))]
    ring

/-- Pointwise addition of two mapped integer sums. -/
lemma list_sum_map_add_int (f g : ℕ → ℤ) :
    ∀ l : List ℕ,
      (l.map (fun x => f x + g x)).sum = (l.map f).sum + (l.map g).sum := by
  intro l
  induction l with
  | nil => simp
  | cons a l ih =>
    simp only [List.map_cons, List.sum_cons, ih]
    ring

/-- Counterexample to the unqualified round-trip claim: on `Hex2` with the
gain cache initialized, moving vertex 0 from block 0 to block 1 and back
(both with full gain-cache updates) succeeds, yet `move_from_benefit(0)`
ends at -1 instead of its initial 0. -/
theorem C6_counterexample :
    (changeNodePartFullUpdate Hex2 0 0 1 10 s2rt).1 = true ∧
    (changeNodePartFullUpdate Hex2 0 1 0 10
      (changeNodePartFullUpdate Hex2 0 0 1 10 s2rt).2).1 = true ∧
    s2rt.moveFromBenefit 0 = 0 ∧
    (changeNodePartFullUpdate Hex2 0 1 0 10
      (changeNodePartFullUpdate Hex2 0 0 1 10 s2rt).2).2.moveFromBenefit 0 = -1 := by
  refine ⟨by decide, by decide, by decide, by decide⟩

/-- Per-edge analysis of a round trip `a → b → a` of vertex `v`: the
gain-cache penalty deltas of the two moves cancel exactly, the benefit deltas
cancel at every vertex other than `v`, and at `v` they leave a residue of
`-w(e)` for each of the `c_to = 2` triggers of the two moves (pin count of
`a` equal to two, pin count of `b` equal to one, before the round trip). -/
lemma roundtrip_edge (H : Hypergraph) (hwf : H.Wellformed)
    (s t1 : PHG) (v a b e : ℕ)
    (he : e ∈ H.incidentEdges v) (hpart : s.partIds v = some a) (hab : a ≠ b)
    (ht : Tracked H s)
    (ht1pi : ∀ x, t1.partIds x = if x = v then some b else s.partIds x)
    (ht1ca : t1.pinCounts e a = s.pinCounts e a - 1)
    (ht1cb : t1.pinCounts e b = s.pinCounts e b + 1) :
    (∀ x q, moveEdgeDeltaPenalty H true b a (moveInitState H t1 v b a) e x q =
      - moveEdgeDeltaPenalty H true a b (moveInitState H s v a b) e x q) ∧
    (∀ x, x ≠ v →
      moveEdgeDeltaBenefit H true b a (moveInitState H t1 v b a) e x =
        - moveEdgeDeltaBenefit H true a b (moveInitState H s v a b) e x) ∧
    moveEdgeDeltaBenefit H true a b (moveInitState H s v a b) e v +
      moveEdgeDeltaBenefit H true b a (moveInitState H t1 v b a) e v =
      -(H.edgeWeight e * ((if s.pinCounts e a = 2 then (1 : ℤ) else 0) +
        (if s.pinCounts e b = 1 then (1 : ℤ) else 0))) := by
  have hvpin : v ∈ H.pins e := (hwf.mem_incident_iff v e).mp he
  have hnd : (H.pins e).Nodup := hwf.pins_nodup e
  have hc_a : s.pinCounts e a =
      (H.pins e).countP (fun u => s.partIds u == some a) := ht.counts e a
  have hc_b : s.pinCounts e b =
      (H.pins e).countP (fun u => s.partIds u == some b) := ht.counts e b
  have hs0pc : (moveInitState H s v a b).pinCounts = s.pinCounts := rfl
  have hs1pc : (moveInitState H t1 v b a).pinCounts = t1.pinCounts := rfl
  have hs0pif : (moveInitState H s v a b).partIds =
      (fun x => if x = v then some b else s.partIds x) := rfl
  have hs1pi : (moveInitState H t1 v b a).partIds = s.partIds := by
    funext x
    show (if x = v then some a else t1.partIds x) = s.partIds x
    by_cases hx : x = v
    · rw [if_pos hx, hx, hpart]
    · rw [if_neg hx, ht1pi x, if_neg hx]
  have hcntPa0 : (H.pins e).countP
      (fun u => (if u = v then some b else s.partIds u) == some a) =
      s.pinCounts e a - 1 := by
    have hflip := countP_flip (H.pins e) hnd v hvpin
      (fun u => s.partIds u == some a)
      (fun u => (if u = v then some b else s.partIds u) == some a)
      (by show (s.partIds v == some a) = true
          rw [hpart]
          simp)
      (by show ((if v = v then some b else s.partIds v) == some a) = false
          rw [if_pos rfl]
          simp
          exact Ne.symm hab)
      (fun x _ hxv => by
        show (s.partIds x == some a) =
          ((if x = v then some b else s.partIds x) == some a)
        rw [if_neg hxv])
    rw [hc_a]
    omega
  refine ⟨?_, ?_, ?_⟩
  · -- penalty deltas cancel
    intro x q
    unfold moveEdgeDeltaPenalty
    rw [if_pos rfl, if_pos rfl, hs0pc, hs1pc, ht1ca, ht1cb]
    have hiffp1 : (s.pinCounts e b + 1 - 1 = 0 ∧ x ∈ H.pins e ∧ q = b) ↔
        (s.pinCounts e b + 1 = 1 ∧ x ∈ H.pins e ∧ q = b) := by
      constructor
      · rintro ⟨hc, hm, hq⟩
        exact ⟨by omega, hm, hq⟩
      · rintro ⟨hc, hm, hq⟩
        exact ⟨by omega, hm, hq⟩
    have hiffp2 : (s.pinCounts e a - 1 + 1 = 1 ∧ x ∈ H.pins e ∧ q = a) ↔
        (s.pinCounts e a - 1 = 0 ∧ x ∈ H.pins e ∧ q = a) := by
      constructor
      · rintro ⟨hc, hm, hq⟩
        exact ⟨by omega, hm, hq⟩
      · rintro ⟨hc, hm, hq⟩
        exact ⟨by omega, hm, hq⟩
    have hp1 := ite_pair_opp _ _ hiffp1 (H.edgeWeight e) (-(H.edgeWeight e))
      (by ring)
    have hp2 := ite_pair_opp _ _ hiffp2 (-(H.edgeWeight e)) (H.edgeWeight e)
      (by ring)
    linarith [hp1, hp2]
  · -- benefit deltas cancel away from v
    intro x hxv
    unfold moveEdgeDeltaBenefit findFromPin
    rw [if_pos rfl, if_pos rfl, hs0pc, hs1pc, hs0pif, hs1pi, ht1ca, ht1cb]
    dsimp only []
    have hiff1 : (s.pinCounts e b + 1 - 1 = 1 ∧
        (H.pins e).find? (fun u => s.partIds u == some b) = some x) ↔
        (s.pinCounts e b + 1 = 2 ∧ x ∈ H.pins e ∧
          (if x = v then some b else s.partIds x) = some b) := by
      constructor
      · rintro ⟨hc, hfind⟩
        have hm := List.mem_of_find?_eq_some hfind
        have hP := List.find?_some hfind
        refine ⟨by omega, hm, ?_⟩
        rw [if_neg hxv]
        simpa using hP
      · rintro ⟨hc, hm, hP⟩
        rw [if_neg hxv] at hP
        refine ⟨by omega, ?_⟩
        refine find?_unique_of_countP_one _ _ ?_ x hm (by simp [hP])
        rw [← hc_b]
        omega
    have hiff2 : (s.pinCounts e a - 1 + 1 = 2 ∧ x ∈ H.pins e ∧
        s.partIds x = some a) ↔
        (s.pinCounts e a - 1 = 1 ∧
          (H.pins e).find?
            (fun u => (if u = v then some b else s.partIds u) == some a) =
            some x) := by
      constructor
      · rintro ⟨hc, hm, hP⟩
        refine ⟨by omega, ?_⟩
        refine find?_unique_of_countP_one _ _ ?_ x hm ?_
        · rw [hcntPa0]
          omega
        · show ((if x = v then some b else s.partIds x) == some a) = true
          rw [if_neg hxv, hP]
          simp
      · rintro ⟨hc, hfind⟩
        have hm := List.mem_of_find?_eq_some hfind
        have hP := List.find?_some hfind
        rw [if_neg hxv] at hP
        refine ⟨by omega, hm, by simpa using hP⟩
    have hp1 := ite_pair_opp _ _ hiff1 (H.edgeWeight e) (-(H.edgeWeight e))
      (by ring)
    have hp2 := ite_pair_opp _ _ hiff2 (-(H.edgeWeight e)) (H.edgeWeight e)
      (by ring)
    linarith [hp1, hp2]
  · -- residual at the moved vertex
    unfold moveEdgeDeltaBenefit findFromPin
    rw [if_pos rfl, if_pos rfl, hs0pc, hs1pc, hs0pif, hs1pi, ht1ca, ht1cb]
    dsimp only []
    have hF1 : ¬(s.pinCounts e a - 1 = 1 ∧
        (H.pins e).find?
          (fun u => (if u = v then some b else s.partIds u) == some a) =
          some v) := by
      rintro ⟨_, hfind⟩
      have hP := List.find?_some hfind
      rw [if_pos rfl] at hP
      simp at hP
      exact hab hP.symm
    have hT1 : ¬(s.pinCounts e b + 1 - 1 = 1 ∧
        (H.pins e).find? (fun u => s.partIds u == some b) = some v) := by
      rintro ⟨_, hfind⟩
      have hP := List.find?_some hfind
      rw [hpart] at hP
      simp at hP
      exact hab hP
    rw [if_neg hF1, if_neg hT1]
    by_cases hca2 : s.pinCounts e a = 2
    · rw [if_pos (show s.pinCounts e a - 1 + 1 = 2 ∧ v ∈ H.pins e ∧
          s.partIds v = some a from ⟨by omega, hvpin, hpart⟩),
        if_pos hca2]
      by_cases hcb1 : s.pinCounts e b = 1
      · rw [if_pos (show s.pinCounts e b + 1 = 2 ∧ v ∈ H.pins e ∧
            (if v = v then some b else s.partIds v) = some b from
            ⟨by omega, hvpin, by rw [if_pos rfl]⟩),
          if_pos hcb1]
        ring
      · rw [if_neg (show ¬(s.pinCounts e b + 1 = 2 ∧ v ∈ H.pins e ∧
            (if v = v then some b else s.partIds v) = some b) from
            fun hc => hcb1 (by
              have h := hc.1
              omega)),
          if_neg hcb1]
        ring
    · rw [if_neg (show ¬(s.pinCounts e a - 1 + 1 = 2 ∧ v ∈ H.pins e ∧
          s.partIds v = some a) from
          fun hc => hca2 (by
            have h := hc.1
            omega)),
        if_neg hca2]
      by_cases hcb1 : s.pinCounts e b = 1
      · rw [if_pos (show s.pinCounts e b + 1 = 2 ∧ v ∈ H.pins e ∧
            (if v = v then some b else s.partIds v) = some b from
            ⟨by omega, hvpin, by rw [if_pos rfl]⟩),
          if_pos hcb1]
        ring
      · rw [if_neg (show ¬(s.pinCounts e b + 1 = 2 ∧ v ∈ H.pins e ∧
            (if v = v then some b else s.partIds v) = some b) from
            fun hc => hcb1 (by
              have h := hc.1
              omega)),
          if_neg hcb1]
        ring

/-- C6 (amended): a successful round trip `changeNodePart(v, a, b)` followed
by `changeNodePart(v, b, a)` (both with full gain-cache updates,
single-threaded) restores every part id, part weight, pin count,
connectivity set and every `move_to_penalty` entry, and restores
`move_from_benefit` of every vertex except the moved vertex `v` itself,
whose entry drops by `w(e)` for every incident edge with pin count of `a`
equal to two or pin count of `b` equal to one before the round trip (the
`c_to = 2` delta loop has no `break` and also hits `v`). -/
theorem C6_round_trip_amended (H : Hypergraph) (hwf : H.Wellformed)
    (s : PHG) (v a b : ℕ) (mw1 mw2 : ℤ)
    (ht : Tracked H s)
    (hpart : s.partIds v = some a) (hab : a ≠ b)
    (hsucc1 : (changeNodePartFullUpdate H v a b mw1 s).1 = true)
    (hsucc2 : (changeNodePartFullUpdate H v b a mw2
      (changeNodePartFullUpdate H v a b mw1 s).2).1 = true) :
    (changeNodePartFullUpdate H v b a mw2
      (changeNodePartFullUpdate H v a b mw1 s).2).2.k = s.k ∧
    (∀ x, (changeNodePartFullUpdate H v b a mw2
      (changeNodePartFullUpdate H v a b mw1 s).2).2.partIds x = s.partIds x) ∧
    (∀ p, (changeNodePartFullUpdate H v b a mw2
      (changeNodePartFullUpdate H v a b mw1 s).2).2.partWeights p =
        s.partWeights p) ∧
    (∀ e p, (changeNodePartFullUpdate H v b a mw2
      (changeNodePartFullUpdate H v a b mw1 s).2).2.pinCounts e p =
        s.pinCounts e p) ∧
    (∀ e p, (changeNodePartFullUpdate H v b a mw2
      (changeNodePartFullUpdate H v a b mw1 s).2).2.connSet e p =
        s.connSet e p) ∧
    (∀ x q, (changeNodePartFullUpdate H v b a mw2
      (changeNodePartFullUpdate H v a b mw1 s).2).2.moveToPenalty x q =
        s.moveToPenalty x q) ∧
    (∀ x, x ≠ v → (changeNodePartFullUpdate H v b a mw2
      (changeNodePartFullUpdate H v a b mw1 s).2).2.moveFromBenefit x =
        s.moveFromBenefit x) ∧
    (changeNodePartFullUpdate H v b a mw2
      (changeNodePartFullUpdate H v a b mw1 s).2).2.moveFromBenefit v =
      s.moveFromBenefit v -
        ((H.incidentEdges v).map (fun e =>
          H.edgeWeight e * ((if s.pinCounts e a = 2 then (1 : ℤ) else 0) +
            (if s.pinCounts e b = 1 then (1 : ℤ) else 0)))).sum := by
  simp only [changeNodePartFullUpdate] at hsucc1 hsucc2 ⊢
  obtain ⟨mk1, mpi1, mpw1, mpc1, mcs1, mmb1, mmp1⟩ :=
    moveSuccess_spec H true v a b mw1 s hab (hwf.incident_nodup v)
      (fun e _ => hwf.pins_nodup e) hsucc1
  obtain ⟨mk2, mpi2, mpw2, mpc2, mcs2, mmb2, mmp2⟩ :=
    moveSuccess_spec H true v b a mw2 (changeNodePartCore H true v a b mw1 s).2
      (Ne.symm hab) (hwf.incident_nodup v) (fun e _ => hwf.pins_nodup e) hsucc2
  have hca_ge : ∀ e ∈ H.incidentEdges v, 1 ≤ s.pinCounts e a := by
    intro e he
    rw [ht.counts e a]
    exact List.countP_pos_iff.mpr ⟨v, (hwf.mem_incident_iff v e).mp he,
      by rw [hpart]; simp⟩
  have ht1ca : ∀ e ∈ H.incidentEdges v,
      (changeNodePartCore H true v a b mw1 s).2.pinCounts e a =
        s.pinCounts e a - 1 := by
    intro e he
    rw [mpc1 e a, if_pos he]
    unfold movedRowCount
    rw [if_pos rfl]
  have ht1cb : ∀ e ∈ H.incidentEdges v,
      (changeNodePartCore H true v a b mw1 s).2.pinCounts e b =
        s.pinCounts e b + 1 := by
    intro e he
    rw [mpc1 e b, if_pos he]
    unfold movedRowCount
    rw [if_neg (Ne.symm hab), if_pos rfl]
  refine ⟨mk2.trans mk1, ?_, ?_, ?_, ?_, ?_, ?_, ?_⟩
  · intro x
    rw [mpi2 x]
    by_cases hx : x = v
    · rw [if_pos hx, hx, hpart]
    · rw [if_neg hx, mpi1 x, if_neg hx]
  · intro p
    rw [mpw2 p, mpw1 p]
    ring
  · intro e p
    rw [mpc2 e p]
    by_cases he : e ∈ H.incidentEdges v
    · rw [if_pos he]
      unfold movedRowCount
      by_cases hpb : p = b
      · rw [if_pos hpb, hpb, ht1cb e he]
        omega
      · rw [if_neg hpb]
        by_cases hpa : p = a
        · rw [if_pos hpa, hpa, ht1ca e he]
          have := hca_ge e he
          omega
        · rw [if_neg hpa, mpc1 e p, if_pos he]
          unfold movedRowCount
          rw [if_neg hpa, if_neg hpb]
    · rw [if_neg he, mpc1 e p, if_neg he]
  · intro e p
    rw [mcs2 e p]
    by_cases he : e ∈ H.incidentEdges v
    · rw [if_pos he]
      have hc1 : ∀ p2, (changeNodePartCore H true v a b mw1 s).2.connSet e p2 =
          movedRowConn a b (s.pinCounts e) (s.connSet e) p2 := by
        intro p2
        rw [mcs1 e p2, if_pos he]
      unfold movedRowConn
      by_cases hpb : p = b
      · rw [if_pos hpb, hpb, ht1cb e he, hc1 b]
        unfold movedRowConn
        rw [if_neg (Ne.symm hab), if_pos rfl]
        by_cases hz : s.pinCounts e b = 0
        · rw [if_pos (by omega : s.pinCounts e b + 1 - 1 = 0)]
          have hfalse : s.connSet e b = false := by
            cases hcase : s.connSet e b
            · rfl
            · have := (ht.conn e b).mp hcase
              omega
          rw [hfalse]
        · rw [if_neg (by omega : ¬(s.pinCounts e b + 1 - 1 = 0)),
            if_neg (by omega : ¬(s.pinCounts e b + 1 = 1))]
      · rw [if_neg hpb]
        by_cases hpa : p = a
        · rw [if_pos hpa, hpa, ht1ca e he, hc1 a]
          unfold movedRowConn
          rw [if_pos rfl]
          have hge := hca_ge e he
          by_cases h1 : s.pinCounts e a = 1
          · rw [if_pos (by omega : s.pinCounts e a - 1 + 1 = 1)]
            have htrue : s.connSet e a = true := (ht.conn e a).mpr (by omega)
            rw [htrue]
          · rw [if_neg (by omega : ¬(s.pinCounts e a - 1 + 1 = 1)),
              if_neg (by omega : ¬(s.pinCounts e a - 1 = 0))]
        · rw [if_neg hpa, hc1 p]
          unfold movedRowConn
          rw [if_neg hpa, if_neg hpb]
    · rw [if_neg he, mcs1 e p, if_neg he]
  · intro x q
    rw [mmp2 x q, mmp1 x q]
    have hcancel : ∀ e ∈ H.incidentEdges v,
        moveEdgeDeltaPenalty H true b a
          (moveInitState H (changeNodePartCore H true v a b mw1 s).2 v b a)
          e x q =
        -(moveEdgeDeltaPenalty H true a b (moveInitState H s v a b) e x q) :=
      fun e he =>
        (roundtrip_edge H hwf s (changeNodePartCore H true v a b mw1 s).2
          v a b e he hpart hab ht mpi1 (ht1ca e he) (ht1cb e he)).1 x q
    have hmap : ((H.incidentEdges v).map (fun e =>
        moveEdgeDeltaPenalty H true b a
          (moveInitState H (changeNodePartCore H true v a b mw1 s).2 v b a)
          e x q)).sum =
        -(((H.incidentEdges v).map (fun e =>
          moveEdgeDeltaPenalty H true a b (moveInitState H s v a b) e x q)).sum) := by
      rw [List.map_congr_left hcancel, list_sum_map_neg]
    linarith [hmap]
  · intro x hxv
    rw [mmb2 x, mmb1 x]
    have hcancel : ∀ e ∈ H.incidentEdges v,
        moveEdgeDeltaBenefit H true b a
          (moveInitState H (changeNodePartCore H true v a b mw1 s).2 v b a)
          e x =
        -(moveEdgeDeltaBenefit H true a b (moveInitState H s v a b) e x) :=
      fun e he =>
        (roundtrip_edge H hwf s (changeNodePartCore H true v a b mw1 s).2
          v a b e he hpart hab ht mpi1 (ht1ca e he) (ht1cb e he)).2.1 x hxv
    have hmap : ((H.incidentEdges v).map (fun e =>
        moveEdgeDeltaBenefit H true b a
          (moveInitState H (changeNodePartCore H true v a b mw1 s).2 v b a)
          e x)).sum =
        -(((H.incidentEdges v).map (fun e =>
          moveEdgeDeltaBenefit H true a b (moveInitState H s v a b) e x)).sum) := by
      rw [List.map_congr_left hcancel, list_sum_map_neg]
    linarith [hmap]
  · rw [mmb2 v, mmb1 v]
    have hsum : ∀ e ∈ H.incidentEdges v,
        moveEdgeDeltaBenefit H true a b (moveInitState H s v a b) e v +
          moveEdgeDeltaBenefit H true b a
            (moveInitState H (changeNodePartCore H true v a b mw1 s).2 v b a)
            e v =
        -(H.edgeWeight e * ((if s.pinCounts e a = 2 then (1 : ℤ) else 0) +
          (if s.pinCounts e b = 1 then (1 : ℤ) else 0))) :=
      fun e he =>
        (roundtrip_edge H hwf s (changeNodePartCore H true v a b mw1 s).2
          v a b e he hpart hab ht mpi1 (ht1ca e he) (ht1cb e he)).2.2
    have hplus := list_sum_map_add_int
      (fun e => moveEdgeDeltaBenefit H true a b (moveInitState H s v a b) e v)
      (fun e => moveEdgeDeltaBenefit H true b a
        (moveInitState H (changeNodePartCore H true v a b mw1 s).2 v b a) e v)
      (H.incidentEdges v)
    have hneg : ((H.incidentEdges v).map (fun e =>
        moveEdgeDeltaBenefit H true a b (moveInitState H s v a b) e v +
          moveEdgeDeltaBenefit H true b a
            (moveInitState H (changeNodePartCore H true v a b mw1 s).2 v b a)
            e v)).sum =
        -(((H.incidentEdges v).map (fun e =>
          H.edgeWeight e * ((if s.pinCounts e a = 2 then (1 : ℤ) else 0) +
            (if s.pinCounts e b = 1 then (1 : ℤ) else 0)))).sum) := by
      rw [List.map_congr_left hsum, list_sum_map_neg]
    linarith [hplus, hneg]

/-- Witness for C6 on the `Hex2` round trip: every restored component holds
at a sample index and the moved vertex keeps the computed residue. -/
theorem C6_round_trip_amended_witness :
    (changeNodePartFullUpdate Hex2 0 1 0 10
      (changeNodePartFullUpdate Hex2 0 0 1 10 s2rt).2).2.partIds 0 =
        s2rt.partIds 0 ∧
    (changeNodePartFullUpdate Hex2 0 1 0 10
      (changeNodePartFullUpdate Hex2 0 0 1 10 s2rt).2).2.pinCounts 0 0 =
        s2rt.pinCounts 0 0 ∧
    (changeNodePartFullUpdate Hex2 0 1 0 10
      (changeNodePartFullUpdate Hex2 0 0 1 10 s2rt).2).2.moveToPenalty 0 1 =
        s2rt.moveToPenalty 0 1 ∧
    (changeNodePartFullUpdate Hex2 0 1 0 10
      (changeNodePartFullUpdate Hex2 0 0 1 10 s2rt).2).2.moveFromBenefit 1 =
        s2rt.moveFromBenefit 1 ∧
    (changeNodePartFullUpdate Hex2 0 1 0 10
      (changeNodePartFullUpdate Hex2 0 0 1 10 s2rt).2).2.moveFromBenefit 0 =
      s2rt.moveFromBenefit 0 -
        ((Hex2.incidentEdges 0).map (fun e =>
          Hex2.edgeWeight e * ((if s2rt.pinCounts e 0 = 2 then (1 : ℤ) else 0) +
            (if s2rt.pinCounts e 1 = 1 then (1 : ℤ) else 0)))).sum := by
  obtain ⟨h1, h2, h3, h4, h5, h6, h7, h8⟩ :=
    C6_round_trip_amended Hex2 Hex2_wf s2rt 0 0 1 10 10
      (tracked_of_baseEq Hex2
        (initializePartition Hex2
          ((List.range Hex2.numNodes).foldl
            (fun t v => setOnlyNodePart t v (if v = 2 then 1 else 0))
            (PHG.init 2)))
        s2rt ⟨rfl, rfl, rfl, rfl, rfl⟩
        (tracked_init_bulk Hex2 Hex2_wf 2 (fun v => if v = 2 then 1 else 0)
          (fun v _ => by by_cases h : v = 2 <;> simp [h])))
      (by decide) (by decide) (by decide) (by decide)
  exact ⟨h2 0, h4 0 0, h6 0 1, h7 1 (by decide), h8⟩

end MtKaHyPar
